import Mathlib

/-!
Shallow embedding of the UCS record-storage engine
(`src/algoritmos__e_estrutura_de_dados_II/data_compression/ArithmeticCoding.go`).

Files are modelled as lists of fixed-size records; a byte offset `off` into the
products data file addresses the record at list position `off / productSize`
(every on-disk product record occupies exactly `binary.Size(Product{}) = 113`
bytes).  The Go `uint32` identifiers and counters are modelled as `Nat`; the
`float32` price is only ever compared with `>`, so it is modelled as `Int`
(order-faithful for the non-NaN floats the importer produces).  `log.Fatalf`
calls, which terminate the process, are modelled by the `Outcome.fatalExit`
constructor (or by `none` where the surrounding operation is modelled as
`Option`-valued), and are distinguished from errors returned to the caller.
-/

namespace UCS



/-- Field values handed to `BuildProduct` by the ingestion pipeline
(already-parsed category reference, brand bytes and price). -/
structure Fields where
  categoryID : Nat
  brand : List Nat
  price : Int
deriving DecidableEq, Repr

/-- The Go `Product` struct: `ID uint32`, `CategoryID uint32`,
`Brand [100]byte`, `Price float32`, `Active bool`. -/
structure Product where
  id : Nat
  categoryID : Nat
  brand : List Nat
  price : Int
  active : Bool
deriving DecidableEq, Repr

/-- `binary.Size(Product{}) = 4 + 4 + 100 + 4 + 1` bytes. -/
def productSize : Nat := 113

/-- The Go zero value `Product{}`, the sentinel that
`RecalculateMostExpensiveProduct` starts its scan from. -/
def zeroProduct : Product :=
  { id := 0, categoryID := 0, brand := List.replicate 100 0, price := 0, active := false }

/-- The Go `IndexEntry` struct: `ID uint32`, `Offset int64`
(`binary.Size(IndexEntry{}) = 12` bytes).  Offsets are byte positions in the
data file, always non-negative. -/
structure IndexEntry where
  id : Nat
  offset : Nat
deriving DecidableEq, Repr

/-- Outcome of an operation whose Go implementation either returns a value or
calls `log.Fatalf` (terminating the process; nothing is returned to the
caller). -/
inductive Outcome (α : Type) where
  | returned (v : α)
  | fatalExit
deriving DecidableEq, Repr

/-- `ReadFromDataFile[Product]`: seeks to `offset` and reads one record.  Any
read error — in particular a short read, when `offset` is past the last whole
record — hits `log.Fatalf` ("Erro ao ler do arquivo de dados"), which
terminates the process rather than returning an error to the caller.  In the
list model a well-formed read must be record-aligned and in range. -/
def ReadFromDataFile (d : List Product) (offset : Nat) : Outcome Product :=
  if h : offset % productSize = 0 ∧ offset / productSize < d.length then
    .returned (d.get ⟨offset / productSize, h.2⟩)
  else
    .fatalExit

/-- `PrintAllProducts`: sequential scan of the data file printing every active
record; `io.EOF` breaks the loop (normal termination, not an error).  The
model returns the list of records the scan visits and prints. -/
def PrintAllProducts (d : List Product) : Outcome (List Product) :=
  .returned (d.filter (fun p => p.active))

/-- The loop of `BinarySearchOnDisk`: `left`/`right` are signed element
indices as in the Go source (`right` starts at `count - 1`, possibly `-1`).
Go computes `mid := (left + right) / 2` with truncating division; on the
reachable inputs both bounds are non-negative, where that agrees with Lean's
floor division used here.  A failed read at `mid` would hit `log.Fatalf`;
in the list model `mid` is always in range when the search is entered through
`BinarySearchOnDisk`, and the unreachable branch returns `(0, false)`. -/
def BinarySearchLoop (idx : List IndexEntry) (targetID : Nat) (left right : Int) :
    Nat × Bool :=
  if left ≤ right then
    let mid := (left + right) / 2
    match idx.get? mid.toNat with
    | none => (0, false)
    | some record =>
      if record.id = targetID then (record.offset, true)
      else if record.id < targetID then BinarySearchLoop idx targetID (mid + 1) right
      else BinarySearchLoop idx targetID left (mid - 1)
  else (0, false)
termination_by (right + 1 - left).toNat
decreasing_by
  · omega
  · omega

/-- `BinarySearchOnDisk`: element count is `fileSize / recordSize`
(= `idx.length` in the list model), the loop starts with
`left = 0, right = count - 1`, and the not-found result is `(0, false)`. -/
def BinarySearchOnDisk (idx : List IndexEntry) (targetID : Nat) : Nat × Bool :=
  BinarySearchLoop idx targetID 0 ((idx.length : Int) - 1)

/-- Strict ascending key order of an index file, the Primary Index invariant. -/
def IndexSorted (idx : List IndexEntry) : Prop :=
  List.Pairwise (fun a b => a.id < b.id) idx

instance : DecidablePred IndexSorted := fun idx =>
  inferInstanceAs (Decidable (List.Pairwise _ idx))

/-- Little-endian 4-byte serialization of a `uint32` value, as
`binary.Write(..., binary.LittleEndian, ...)` lays it out. -/
def u32LE (n : Nat) : List Nat :=
  [n % 256, n / 256 % 256, n / 65536 % 256, n / 16777216 % 256]

/-- Little-endian 4-byte deserialization of a `uint32` value, as
`binary.Read(..., binary.LittleEndian, ...)` reassembles it. -/
def u32Dec (bs : List Nat) : Nat :=
  bs.getD 0 0 + 256 * bs.getD 1 0 + 65536 * bs.getD 2 0 + 16777216 * bs.getD 3 0

/-- Byte-accurate view of the `Product` struct for the codec claim: the
`float32` price is carried as its 32-bit pattern, which `binary.Write`
serializes and `binary.Read` restores exactly (bit for bit), and the bool
`Active` is one byte. -/
structure ProductRaw where
  id : Nat
  categoryID : Nat
  brand : List Nat
  priceBits : Nat
  active : Bool
deriving DecidableEq, Repr

/-- The 113-byte layout `binary.Write(dataFile, binary.LittleEndian, product)`
produces in `AppendDataToFile`: each numeric field little-endian, the brand a
fixed-width 100-byte array, the active flag one byte (1 for true, 0 for
false). -/
def encodeProduct (p : ProductRaw) : List Nat :=
  u32LE p.id ++ u32LE p.categoryID ++ p.brand ++ u32LE p.priceBits ++
    [if p.active then 1 else 0]

/-- The decoding `binary.Read(dataFile, binary.LittleEndian, &data)` performs
in `ReadFromDataFile`: reads one record-sized buffer and reassembles every
field; a buffer of any other length fails. A nonzero active byte decodes to
true. -/
def decodeProduct (bs : List Nat) : Option ProductRaw :=
  if bs.length = productSize then
    some { id := u32Dec (bs.take 4),
           categoryID := u32Dec ((bs.drop 4).take 4),
           brand := (bs.drop 8).take 100,
           priceBits := u32Dec ((bs.drop 108).take 4),
           active := ((bs.drop 112).headD 0) != 0 }
  else none

/-- A valid record: every field within the range of its fixed-width layout
(`uint32` fields below 2^32, exactly 100 brand bytes, byte values below
256). -/
def ValidProductRaw (p : ProductRaw) : Prop :=
  p.id < 2 ^ 32 ∧ p.categoryID < 2 ^ 32 ∧ p.priceBits < 2 ^ 32 ∧
    p.brand.length = 100 ∧ ∀ b ∈ p.brand, b < 256

/-- The Go `ActionMetrics` struct: `Action uint8` bitmask tag plus
`NumberOfOcurrences uint32` (the fixed slot is 5 bytes on disk). -/
structure ActionMetrics where
  action : Nat
  occurrences : Nat
deriving DecidableEq, Repr

/-- `StoreActionMetrics`: linear scan of the metrics file; on the first entry
with a matching action tag it seeks back and rewrites that single fixed-size
slot with the count incremented; when the scan reaches end of file without a
match it appends a fresh entry with count 1.  `NumberOfOcurrences` is a Go
`uint32`, so `++` wraps at 2^32 = 4294967296. -/
def StoreActionMetrics : List ActionMetrics → Nat → List ActionMetrics
  | [], a => [⟨a, 1⟩]
  | m :: rest, a =>
    if m.action = a then ⟨m.action, (m.occurrences + 1) % 4294967296⟩ :: rest
    else m :: StoreActionMetrics rest a

/-- `SearchActionMetrics`: linear scan returning the first matching entry, or
a zero-count entry for the requested action when none exists (absence is not
an error). -/
def SearchActionMetrics : List ActionMetrics → Nat → ActionMetrics
  | [], a => ⟨a, 0⟩
  | m :: rest, a => if m.action = a then m else SearchActionMetrics rest a

/-- The metrics file after a sequence of `StoreActionMetrics` calls starting
from an empty file. -/
def applyMetrics (acts : List Nat) : List ActionMetrics :=
  acts.foldl StoreActionMetrics []

/-- The persistent state of the products record family: the data file (whole
fixed-size records in append order), the primary index file, and the
single-slot secondary index file (`none` models an empty slot file, whose
read fails). -/
structure StoreState where
  data : List Product
  index : List IndexEntry
  slot : Option Product
deriving DecidableEq, Repr

/-- The initial state: all three files empty. -/
def emptyStore : StoreState := ⟨[], [], none⟩

/-- `ReadLastProduct`: `nil` on an empty data file, otherwise the record read
at `fileSize - recordSize`, i.e. the last whole record. -/
def ReadLastProduct (d : List Product) : Option Product := d.getLast?

/-- `BuildProduct`: the next sequential ID is the last stored record's ID
plus one, or 0 when the store is empty; the new record starts active.  The
Go `nextID` is a `uint32`, so `lastProduct.ID + 1` wraps at
2^32 = 4294967296. -/
def BuildProduct (d : List Product) (f : Fields) : Product :=
  { id := match ReadLastProduct d with
          | none => 0
          | some lastProduct => (lastProduct.id + 1) % 4294967296,
    categoryID := f.categoryID, brand := f.brand, price := f.price, active := true }

/-- `UpdateMostExpensiveProductIndex`: an inactive candidate is ignored; if
the slot file cannot be read (empty file) the candidate is written
unconditionally; otherwise the slot is overwritten only when the candidate's
price is strictly greater than the stored one. -/
def UpdateMostExpensiveProductIndex (slot : Option Product) (product : Product) :
    Option Product :=
  if !product.active then slot
  else
    match slot with
    | some mostExpensiveProduct =>
        if product.price > mostExpensiveProduct.price then some product
        else some mostExpensiveProduct
    | none => some product

/-- `AddProduct` = `Append` + `UpdateMostExpensiveProductIndex`:
`AppendDataToFile` writes the record at the end-of-file offset (with only
whole records in the file that offset is `productSize * length`) and
`AppendIndexToFile` appends the matching `(id, offset)` entry. -/
def AddProduct (s : StoreState) (product : Product) : StoreState :=
  { data := s.data ++ [product],
    index := s.index ++ [⟨product.id, productSize * s.data.length⟩],
    slot := UpdateMostExpensiveProductIndex s.slot product }

/-- The public insert: `BuildProduct` from the current data file, then
`AddProduct` (as `ImportarCSV` performs it for each fresh product row). -/
def InsertProduct (s : StoreState) (f : Fields) : StoreState :=
  AddProduct s (BuildProduct s.data f)

/-- `RecalculateMostExpensiveProduct`: full scan of the data file starting
from the zero `Product{}`, replacing the running value by any active record
whose price is strictly greater (so ties keep the record seen first). -/
def RecalculateMostExpensiveProduct (d : List Product) : Product :=
  d.foldl
    (fun mostExpensiveProduct product =>
      if product.active = true ∧ product.price > mostExpensiveProduct.price then product
      else mostExpensiveProduct)
    zeroProduct

/-- `SearchMostExpensiveProduct`: reads the one record in the slot file; on an
empty slot file the read error hits `log.Fatalf`. -/
def SearchMostExpensiveProduct (s : StoreState) : Option Product := s.slot

/-- `RemoveProduct` (soft delete): find the key via `BinarySearchOnDisk`
(`not found` is an error returned to the caller, no state change); read the
record; if it is still active, rewrite it in place with `Active = false` and,
when its ID matches the secondary-index holder's ID, run
`RecalculateMostExpensiveProduct` over the updated data file into the slot.
An already-inactive record means no write at all and a `nil` return.
`none` models both the returned not-found error and the unreachable
`log.Fatalf` paths (bad offset, empty slot file); in all of them the store
files are unchanged. -/
def RemoveProduct (s : StoreState) (id : Nat) : Option StoreState :=
  match BinarySearchOnDisk s.index id with
  | (offset, true) =>
    match ReadFromDataFile s.data offset with
    | .fatalExit => none
    | .returned product =>
      if product.active then
        let d := s.data.set (offset / productSize) { product with active := false }
        match s.slot with
        | none => none
        | some mostExpensiveProduct =>
          if product.id = mostExpensiveProduct.id then
            some { s with data := d, slot := some (RecalculateMostExpensiveProduct d) }
          else
            some { s with data := d }
      else some s
  | (_, false) => none

/-- The explicit public recompute: full scan, then overwrite the slot
unconditionally with the result. -/
def RecomputeSlot (s : StoreState) : StoreState :=
  { s with slot := some (RecalculateMostExpensiveProduct s.data) }

/-- The loop of `RemoveProductFromDataFile`: walk the data file keeping a
running byte offset; every record except the one whose offset equals
`offsetToRemove` is copied to the temporary file, which then atomically
replaces the original. -/
def RemoveProductFromDataFile : List Product → Nat → Nat → List Product
  | [], _, _ => []
  | product :: rest, currentOffset, offsetToRemove =>
    if currentOffset = offsetToRemove then
      RemoveProductFromDataFile rest (currentOffset + productSize) offsetToRemove
    else
      product :: RemoveProductFromDataFile rest (currentOffset + productSize) offsetToRemove

/-- `RemoveFromIndexFile`: linear scan copying every entry whose ID differs
from `idToRemove` into the temporary index file, which then atomically
replaces the original. -/
def RemoveFromIndexFile (idx : List IndexEntry) (idToRemove : Nat) : List IndexEntry :=
  idx.filter (fun indexEntry => indexEntry.id != idToRemove)

/-- `RemoveByID` (purge): find the record's offset via the index (`not
found` is an error returned to the caller), rewrite the data file without
the record at that offset, then rewrite the index without the key.  The
secondary-index slot file is not touched. -/
def RemoveByID (s : StoreState) (itemID : Nat) : Option StoreState :=
  match BinarySearchOnDisk s.index itemID with
  | (offset, true) =>
      some { s with data := RemoveProductFromDataFile s.data 0 offset,
                    index := RemoveFromIndexFile s.index itemID }
  | (_, false) => none

/-- The public lookup: `BinarySearchOnDisk` on the index, then
`ReadFromDataFile` at the returned offset; a miss is reported as not-found
(`none`), and a fatal read abort also yields no record. -/
def LookupProduct (s : StoreState) (id : Nat) : Option Product :=
  match BinarySearchOnDisk s.index id with
  | (offset, true) =>
      match ReadFromDataFile s.data offset with
      | .returned product => some product
      | .fatalExit => none
  | (_, false) => none

/-- A public operation on the products store. -/
inductive Op where
  | insert (f : Fields)
  | softDelete (id : Nat)
  | recompute
  | purge (id : Nat)
deriving DecidableEq, Repr

/-- Run one public operation; operations that return an error leave the
store files unchanged. -/
def applyOp (s : StoreState) : Op → StoreState
  | .insert f => InsertProduct s f
  | .softDelete id => (RemoveProduct s id).getD s
  | .recompute => RecomputeSlot s
  | .purge id => (RemoveByID s id).getD s

/-- Run a sequence of public operations from the empty store. -/
def applyOps (ops : List Op) : StoreState :=
  ops.foldl applyOp emptyStore

/-- True when the sequence contains no purge. -/
def noPurge (ops : List Op) : Bool :=
  ops.all (fun op => match op with | .purge _ => false | _ => true)

/-- True when every inserted record has a strictly positive price. -/
def posPrices (ops : List Op) : Bool :=
  ops.all (fun op => match op with | .insert f => decide (0 < f.price) | _ => true)

/-- Number of inserts in a sequence (= number of data-file records it
creates). -/
def numInserts : List Op → Nat
  | [] => 0
  | .insert _ :: rest => numInserts rest + 1
  | _ :: rest => numInserts rest

/-- The field values of the k-th insert of the sequence (0-based), i.e. of
the insert that creates key k. -/
def insertFields : List Op → Nat → Option Fields
  | [], _ => none
  | .insert f :: rest, k => if k = 0 then some f else insertFields rest (k - 1)
  | _ :: rest, k => insertFields rest k

/-- Whether key `k` is soft-deleted by the remaining operations, given that
`seen` inserts have already happened: a `softDelete k` counts only once key
`k` exists (`k < seen`).  (Purges are excluded by `noPurge` wherever this
is used.) -/
def isDeletedFrom : List Op → Nat → Nat → Bool
  | [], _, _ => false
  | .insert _ :: rest, k, seen => isDeletedFrom rest k (seen + 1)
  | .softDelete j :: rest, k, seen =>
      (j == k && decide (k < seen)) || isDeletedFrom rest k seen
  | .recompute :: rest, k, seen => isDeletedFrom rest k seen
  | .purge _ :: rest, k, seen => isDeletedFrom rest k seen

/-- Whether key `k` is soft-deleted over the whole sequence. -/
def isDeleted (ops : List Op) (k : Nat) : Bool := isDeletedFrom ops k 0

/-- What the secondary-index slot must hold over data file `d`: either the
zero sentinel while no record is active, or the first active record (in file
order) whose price is maximal among active records. -/
def GoodSlot (d : List Product) (m : Product) : Prop :=
  (m = zeroProduct ∧ ∀ i, (h : i < d.length) → (d.get ⟨i, h⟩).active = false) ∨
  (m.active = true ∧
    (∀ i, (h : i < d.length) → (d.get ⟨i, h⟩).active = true →
      (d.get ⟨i, h⟩).price ≤ m.price) ∧
    ∃ j, ∃ hj : j < d.length, d.get ⟨j, hj⟩ = m ∧
      ∀ i, (hi : i < j) → (d.get ⟨i, Nat.lt_trans hi hj⟩).active = true →
        (d.get ⟨i, Nat.lt_trans hi hj⟩).price < m.price)

/-- The slot invariant maintained by the store under positive prices: the
slot file is empty only while the whole store is, and otherwise holds a
`GoodSlot` value for the current data file. -/
def SlotInv (data : List Product) (slot : Option Product) : Prop :=
  (data = [] ∧ slot = none) ∨ ∃ m, slot = some m ∧ GoodSlot data m

/-- The index file laid down by `n` sequential inserts from an empty store:
entry `i` holds key `i` at byte offset `productSize * i`. -/
def rangeIndex (n : Nat) : List IndexEntry :=
  (List.range n).map (fun i => ⟨i, productSize * i⟩)

/-- The structural invariant of every reachable (purge-free) store state: the
data file holds one record per insert, record `k` carries key `k` and the
fields of the k-th insert with the active flag tracking soft deletion, the
index is exactly the ascending `(i, productSize * i)` sequence, and the slot
file is non-empty once anything was inserted. -/
def StoreInv (ops : List Op) (s : StoreState) : Prop :=
  s.data.length = numInserts ops ∧
  s.index = rangeIndex s.data.length ∧
  (∀ k, (hk : k < s.data.length) →
    ∃ f, insertFields ops k = some f ∧
      s.data.get ⟨k, hk⟩ =
        { id := k, categoryID := f.categoryID, brand := f.brand, price := f.price,
          active := !(isDeleted ops k) }) ∧
  (0 < s.data.length → s.slot.isSome = true)

theorem BinarySearchLoop_unfold_pos (idx : List IndexEntry) (t : Nat) (l r : Int)
    (hlr : l ≤ r) :
    BinarySearchLoop idx t l r =
      match idx.get? (((l + r) / 2).toNat) with
      | none => (0, false)
      | some record =>
        if record.id = t then (record.offset, true)
        else if record.id < t then BinarySearchLoop idx t ((l + r) / 2 + 1) r
        else BinarySearchLoop idx t l ((l + r) / 2 - 1) := by
  rw [BinarySearchLoop.eq_def]
  simp only [if_pos hlr]

theorem BinarySearchLoop_unfold_neg (idx : List IndexEntry) (t : Nat) (l r : Int)
    (hlr : ¬ l ≤ r) :
    BinarySearchLoop idx t l r = (0, false) := by
  rw [BinarySearchLoop.eq_def]
  simp only [if_neg hlr]

theorem BinarySearchLoop_not_found (idx : List IndexEntry) (t : Nat)
    (habs : ∀ e ∈ idx, e.id ≠ t) (l r : Int) :
    BinarySearchLoop idx t l r = (0, false) := by
  induction l, r using BinarySearchLoop.induct idx t with
  | case1 l r hlr mid hget =>
      rw [BinarySearchLoop_unfold_pos idx t l r hlr]
      rw [show idx.get? (((l + r) / 2).toNat) = none from hget]
  | case2 l r hlr mid record hget heq =>
      exact absurd heq (habs record (List.get?_mem hget))
  | case3 l r hlr mid record hget hne hlt ih =>
      rw [BinarySearchLoop_unfold_pos idx t l r hlr]
      rw [show idx.get? (((l + r) / 2).toNat) = some record from hget]
      simp only [if_neg hne, if_pos hlt]
      exact ih
  | case4 l r hlr mid record hget hne hnlt ih =>
      rw [BinarySearchLoop_unfold_pos idx t l r hlr]
      rw [show idx.get? (((l + r) / 2).toNat) = some record from hget]
      simp only [if_neg hne, if_neg hnlt]
      exact ih
  | case5 l r hlr =>
      exact BinarySearchLoop_unfold_neg idx t l r hlr

theorem IndexSorted.id_lt {idx : List IndexEntry} (h : IndexSorted idx)
    {i j : Nat} (hi : i < idx.length) (hj : j < idx.length) (hij : i < j) :
    (idx.get ⟨i, hi⟩).id < (idx.get ⟨j, hj⟩).id :=
  List.pairwise_iff_get.mp h ⟨i, hi⟩ ⟨j, hj⟩ hij

theorem get_eq_of_get?_eq {α : Type} (l : List α) (p q : Nat) (hp : p < l.length)
    {a : α} (hq : l.get? q = some a) (hpq : p = q) : l.get ⟨p, hp⟩ = a := by
  have h1 : l.get? p = some (l.get ⟨p, hp⟩) := List.get?_eq_get hp
  have h2 : l.get? p = some a := by rw [hpq]; exact hq
  rw [h1] at h2
  exact Option.some.inj h2

theorem BinarySearchLoop_finds (idx : List IndexEntry) (t : Nat)
    (hsorted : IndexSorted idx) (p : Nat) (hp : p < idx.length)
    (hid : (idx.get ⟨p, hp⟩).id = t) :
    ∀ l r : Int, 0 ≤ l → l ≤ (p : Int) → (p : Int) ≤ r → r < (idx.length : Int) →
      BinarySearchLoop idx t l r = ((idx.get ⟨p, hp⟩).offset, true) := by
  intro l r
  induction l, r using BinarySearchLoop.induct idx t with
  | case1 l r hlr mid hget =>
      intro h0 hlp hpr hrlen
      have hmid : mid = (l + r) / 2 := rfl
      rw [List.get?_eq_none] at hget
      omega
  | case2 l r hlr mid record hget heq =>
      intro h0 hlp hpr hrlen
      have hmid : mid = (l + r) / 2 := rfl
      rw [BinarySearchLoop_unfold_pos idx t l r hlr]
      rw [show idx.get? (((l + r) / 2).toNat) = some record from hget]
      simp only [if_pos heq]
      obtain ⟨hmlen, hrec⟩ := List.get?_eq_some.mp hget
      have heqp : p = mid.toNat := by
        by_contra hne2
        rcases Nat.lt_or_ge mid.toNat p with hc | hc
        · have := hsorted.id_lt hmlen hp hc
          rw [hrec, heq, hid] at this
          omega
        · have hc2 : p < mid.toNat := by omega
          have := hsorted.id_lt hp hmlen hc2
          rw [hrec, heq, hid] at this
          omega
      have : idx.get ⟨p, hp⟩ = record := get_eq_of_get?_eq idx p mid.toNat hp hget heqp
      rw [this]
  | case3 l r hlr mid record hget hne hlt ih =>
      intro h0 hlp hpr hrlen
      have hmid : mid = (l + r) / 2 := rfl
      rw [BinarySearchLoop_unfold_pos idx t l r hlr]
      rw [show idx.get? (((l + r) / 2).toNat) = some record from hget]
      simp only [if_neg hne, if_pos hlt]
      obtain ⟨hmlen, hrec⟩ := List.get?_eq_some.mp hget
      have hmp : mid.toNat < p := by
        by_contra hge
        have hc : p ≤ mid.toNat := by omega
        have hle : (idx.get ⟨p, hp⟩).id ≤ record.id := by
          rcases Nat.eq_or_lt_of_le hc with hc2 | hc2
          · rw [get_eq_of_get?_eq idx p mid.toNat hp hget hc2]
          · have := hsorted.id_lt hp hmlen hc2
            rw [hrec] at this
            exact le_of_lt this
        rw [hid] at hle
        omega
      exact ih (by omega) (by omega) hpr hrlen
  | case4 l r hlr mid record hget hne hnlt ih =>
      intro h0 hlp hpr hrlen
      have hmid : mid = (l + r) / 2 := rfl
      rw [BinarySearchLoop_unfold_pos idx t l r hlr]
      rw [show idx.get? (((l + r) / 2).toNat) = some record from hget]
      simp only [if_neg hne, if_neg hnlt]
      obtain ⟨hmlen, hrec⟩ := List.get?_eq_some.mp hget
      have hpm : p < mid.toNat := by
        by_contra hge
        have hc : mid.toNat ≤ p := by omega
        have hle : record.id ≤ (idx.get ⟨p, hp⟩).id := by
          rcases Nat.eq_or_lt_of_le hc with hc2 | hc2
          · rw [get_eq_of_get?_eq idx p mid.toNat hp hget hc2.symm]
          · have := hsorted.id_lt hmlen hp hc2
            rw [hrec] at this
            exact le_of_lt this
        rw [hid] at hle
        omega
      exact ih h0 hlp (by omega) (by omega)
  | case5 l r hlr =>
      intro h0 hlp hpr hrlen
      omega

theorem BinarySearchOnDisk_finds (idx : List IndexEntry) (k off : Nat)
    (hsorted : IndexSorted idx) (hmem : (⟨k, off⟩ : IndexEntry) ∈ idx) :
    BinarySearchOnDisk idx k = (off, true) := by
  obtain ⟨⟨p, hp⟩, hget⟩ := List.mem_iff_get.mp hmem
  have h := BinarySearchLoop_finds idx k hsorted p hp (by rw [hget]) 0
    ((idx.length : Int) - 1) le_rfl (by exact_mod_cast Nat.zero_le p) (by omega) (by omega)
  rw [BinarySearchOnDisk, h, hget]

theorem BinarySearchOnDisk_not_found (idx : List IndexEntry) (k : Nat)
    (habs : ∀ e ∈ idx, e.id ≠ k) :
    BinarySearchOnDisk idx k = (0, false) :=
  BinarySearchLoop_not_found idx k habs 0 ((idx.length : Int) - 1)

theorem u32_round (n : Nat) (h : n < 2 ^ 32) :
    n % 256 + 256 * (n / 256 % 256) + 65536 * (n / 65536 % 256) +
      16777216 * (n / 16777216 % 256) = n := by
  have e1 : n / 256 / 256 = n / 65536 := by rw [Nat.div_div_eq_div_mul]
  have e2 : n / 65536 / 256 = n / 16777216 := by rw [Nat.div_div_eq_div_mul]
  have e3 : n / 16777216 / 256 = 0 := by
    rw [Nat.div_div_eq_div_mul]
    exact Nat.div_eq_of_lt (by omega)
  omega

theorem decode_encode (p : ProductRaw) (hv : ValidProductRaw p) :
    decodeProduct (encodeProduct p) = some p := by
  obtain ⟨hid, hcat, hbits, hbrand, _⟩ := hv
  obtain ⟨pid, pcat, pbrand, pbits, pact⟩ := p
  simp only [ProductRaw.brand] at hbrand
  have hlen : (encodeProduct ⟨pid, pcat, pbrand, pbits, pact⟩).length = productSize := by
    simp [encodeProduct, u32LE, productSize, hbrand]
  rw [decodeProduct, if_pos hlen]
  cases pact <;>
    · simp [encodeProduct, u32LE, u32Dec, List.take, List.drop,
        List.take_left', List.drop_left', hbrand]
      refine ⟨u32_round _ hid, u32_round _ hcat, u32_round _ hbits, ?_⟩
      rw [List.getElem_append_right (by omega)]
      simp [hbrand]

theorem search_store (l : List ActionMetrics) (a c : Nat) :
    (SearchActionMetrics (StoreActionMetrics l a) c).occurrences =
      if a = c then ((SearchActionMetrics l c).occurrences + 1) % 4294967296
      else (SearchActionMetrics l c).occurrences := by
  induction l with
  | nil =>
      by_cases h : a = c <;> simp [StoreActionMetrics, SearchActionMetrics, h]
  | cons m rest ih =>
      obtain ⟨ma, mo⟩ := m
      simp only [StoreActionMetrics]
      by_cases h1 : ma = a
      · subst h1
        simp only [if_pos rfl, SearchActionMetrics]
        by_cases h2 : ma = c
        · subst h2
          simp [SearchActionMetrics]
        · simp [SearchActionMetrics, h2]
      · simp only [if_neg h1, SearchActionMetrics]
        by_cases h2 : ma = c
        · subst h2
          have hne : ¬ a = ma := fun he => h1 he.symm
          simp [SearchActionMetrics, hne]
        · simp [SearchActionMetrics, h2, ih]

theorem search_foldl (acts : List Nat) (l : List ActionMetrics) (c : Nat)
    (hl : (SearchActionMetrics l c).occurrences < 4294967296) :
    (SearchActionMetrics (acts.foldl StoreActionMetrics l) c).occurrences =
      ((SearchActionMetrics l c).occurrences + acts.count c) % 4294967296 := by
  induction acts generalizing l with
  | nil =>
      simp
      omega
  | cons a rest ih =>
      rw [List.foldl_cons]
      have hst := search_store l a c
      have hlt : (SearchActionMetrics (StoreActionMetrics l a) c).occurrences
          < 4294967296 := by
        rw [hst]
        by_cases h : a = c <;> simp [h] <;> omega
      rw [ih _ hlt, hst, List.count_cons]
      by_cases h : a = c <;> simp [h] <;> omega

theorem store_keys (l : List ActionMetrics) (a : Nat) :
    (StoreActionMetrics l a).map (fun m => m.action) =
      if a ∈ l.map (fun m => m.action) then l.map (fun m => m.action)
      else l.map (fun m => m.action) ++ [a] := by
  induction l with
  | nil => simp [StoreActionMetrics]
  | cons m rest ih =>
      obtain ⟨ma, mo⟩ := m
      by_cases h1 : ma = a
      · subst h1
        simp [StoreActionMetrics]
      · have hne : ¬ a = ma := fun he => h1 he.symm
        by_cases hmem : a ∈ rest.map (fun m => m.action) <;>
          simp [StoreActionMetrics, h1, ih, hmem, hne]

theorem applyMetrics_nodup (acts : List Nat) :
    ((applyMetrics acts).map (fun m => m.action)).Nodup := by
  rw [applyMetrics]
  have main : ∀ l : List ActionMetrics, (l.map (fun m => m.action)).Nodup →
      ((acts.foldl StoreActionMetrics l).map (fun m => m.action)).Nodup := by
    induction acts with
    | nil => intro l h; simpa using h
    | cons a rest ih =>
        intro l h
        rw [List.foldl_cons]
        refine ih _ ?_
        rw [store_keys]
        by_cases hmem : a ∈ l.map (fun m => m.action)
        · simpa [hmem] using h
        · simp only [hmem, if_false]
          simp [List.nodup_append, h, hmem]
  exact main [] (by simp)

theorem applyMetrics_query (acts : List Nat) (c : Nat) :
    (SearchActionMetrics (applyMetrics acts) c).occurrences =
      acts.count c % 4294967296 := by
  rw [applyMetrics, search_foldl acts [] c (by simp [SearchActionMetrics])]
  simp [SearchActionMetrics]

theorem recalc_good (d : List Product) (hpos : ∀ p ∈ d, 0 < p.price) :
    GoodSlot d (RecalculateMostExpensiveProduct d) := by
  induction d using List.reverseRecOn with
  | nil =>
      left
      constructor
      · rfl
      · intro i h
        simp at h
  | append_singleton d q ih =>
      have hpos' : ∀ p ∈ d, 0 < p.price := fun p hp => hpos p (by simp [hp])
      have hq : 0 < q.price ∨ q.active = false := by
        by_cases hact : q.active = true
        · exact Or.inl (hpos q (by simp))
        · exact Or.inr (by simpa using hact)
      have step : RecalculateMostExpensiveProduct (d ++ [q]) =
          if q.active = true ∧ q.price > (RecalculateMostExpensiveProduct d).price then q
          else RecalculateMostExpensiveProduct d := by
        rw [RecalculateMostExpensiveProduct, List.foldl_append]
        rfl
      have hlen : (d ++ [q]).length = d.length + 1 := by simp
      have hgetlt : ∀ i, (h : i < d.length) → (hh : i < (d ++ [q]).length) →
          (d ++ [q]).get ⟨i, hh⟩ = d.get ⟨i, h⟩ := by
        intro i h hh
        simp [List.get_eq_getElem, List.getElem_append_left h]
      have hgetq : ∀ (hh : d.length < (d ++ [q]).length),
          (d ++ [q]).get ⟨d.length, hh⟩ = q := by
        intro hh
        simp [List.get_eq_getElem]
      rw [step]
      by_cases hcond : q.active = true ∧ q.price > (RecalculateMostExpensiveProduct d).price
      · -- slot becomes q, placed at position d.length
        rw [if_pos hcond]
        right
        refine ⟨hcond.1, ?_, d.length, by omega, hgetq (by omega), ?_⟩
        · intro i h hact
          rcases Nat.lt_or_ge i d.length with hi | hi
          · rw [hgetlt i hi h] at hact ⊢
            -- old record: compare through the old slot
            rcases ih hpos' with ⟨hzero, hall⟩ | ⟨_, hmax, _⟩
            · rw [hall i hi] at hact
              cases hact
            · exact le_of_lt (lt_of_le_of_lt (hmax i hi hact) hcond.2)
          · have : i = d.length := by omega
            subst this
            rw [hgetq h]
        · intro i hi hact
          rw [hgetlt i hi (by omega)] at hact ⊢
          rcases ih hpos' with ⟨hzero, hall⟩ | ⟨_, hmax, _⟩
          · rw [hall i hi] at hact
            cases hact
          · exact lt_of_le_of_lt (hmax i hi hact) hcond.2
      · -- slot keeps the old value
        rw [if_neg hcond]
        rcases ih hpos' with ⟨hzero, hall⟩ | ⟨hact, hmax, j, hj, hget, hfirst⟩
        · -- old: all inactive; q must be inactive too, else its price > 0 = slot price
          have hqin : q.active = false := by
            by_cases hqa : q.active = true
            · exfalso
              apply hcond
              refine ⟨hqa, ?_⟩
              rw [hzero]
              have := hpos q (by simp)
              simpa [zeroProduct] using this
            · simpa using hqa
          left
          refine ⟨hzero, ?_⟩
          intro i h
          rcases Nat.lt_or_ge i d.length with hi | hi
          · rw [hgetlt i hi h]
            exact hall i hi
          · have : i = d.length := by omega
            subst this
            rw [hgetq h]
            exact hqin
        · right
          refine ⟨hact, ?_, j, by omega, ?_, ?_⟩
          · intro i h hacti
            rcases Nat.lt_or_ge i d.length with hi | hi
            · rw [hgetlt i hi h] at hacti ⊢
              exact hmax i hi hacti
            · have : i = d.length := by omega
              subst this
              rw [hgetq h] at hacti ⊢
              -- q active but did not beat the slot
              by_contra hgt
              exact hcond ⟨hacti, by omega⟩
          · rw [hgetlt j hj (by omega)]
            exact hget
          · intro i hi hacti
            have hilt : i < d.length := by omega
            rw [hgetlt i hilt (by omega)] at hacti ⊢
            exact hfirst i hi hacti

theorem goodslot_deactivate (d : List Product) (m p' : Product) (k : Nat)
    (hk : k < d.length) (hgood : GoodSlot d m) (hact : m.active = true)
    (hne : m ≠ d.get ⟨k, hk⟩) (hp' : p'.active = false) :
    GoodSlot (d.set k p') m := by
  rcases hgood with ⟨hzero, _⟩ | ⟨_, hmax, j, hj, hget, hfirst⟩
  · rw [hzero] at hact
    simp [zeroProduct] at hact
  · right
    have hgetset : ∀ i, (h : i < d.length) → (hh : i < (d.set k p').length) →
        (d.set k p').get ⟨i, hh⟩ = if k = i then p' else d.get ⟨i, h⟩ := by
      intro i h hh
      simp [List.get_eq_getElem, List.getElem_set]
    refine ⟨hact, ?_, j, by simpa using hj, ?_, ?_⟩
    · intro i h hacti
      have hi : i < d.length := by simpa using h
      rw [hgetset i hi h] at hacti ⊢
      by_cases hki : k = i
      · rw [if_pos hki] at hacti
        rw [hp'] at hacti
        cases hacti
      · rw [if_neg hki] at hacti ⊢
        exact hmax i hi hacti
    · rw [hgetset j hj (by simpa using hj)]
      have hjk : k ≠ j := by
        intro he
        subst he
        exact hne hget.symm
      rw [if_neg hjk]
      exact hget
    · intro i hi hacti
      have hilt : i < d.length := Nat.lt_trans hi hj
      rw [hgetset i hilt (by simpa using hilt)] at hacti ⊢
      by_cases hki : k = i
      · rw [if_pos hki] at hacti
        rw [hp'] at hacti
        cases hacti
      · rw [if_neg hki] at hacti ⊢
        exact hfirst i hi hacti

theorem updateMostExpensive_isSome (slot : Option Product) (p : Product)
    (hpa : p.active = true) :
    (UpdateMostExpensiveProductIndex slot p).isSome = true := by
  cases slot with
  | none => simp [UpdateMostExpensiveProductIndex, hpa]
  | some m =>
      by_cases h : p.price > m.price <;>
        simp [UpdateMostExpensiveProductIndex, hpa, h]

theorem slotInv_update (d : List Product) (slot : Option Product) (p : Product)
    (hinv : SlotInv d slot) (hpa : p.active = true) (hpp : 0 < p.price) :
    SlotInv (d ++ [p]) (UpdateMostExpensiveProductIndex slot p) := by
  have hgetlt : ∀ i, (h : i < d.length) → (hh : i < (d ++ [p]).length) →
      (d ++ [p]).get ⟨i, hh⟩ = d.get ⟨i, h⟩ := by
    intro i h hh
    simp [List.get_eq_getElem, List.getElem_append_left h]
  have hgetp : ∀ (hh : d.length < (d ++ [p]).length),
      (d ++ [p]).get ⟨d.length, hh⟩ = p := by
    intro hh
    simp [List.get_eq_getElem]
  rcases hinv with ⟨hd, hs⟩ | ⟨m, hs, hgood⟩
  · subst hd
    subst hs
    right
    refine ⟨p, ?_, ?_⟩
    · simp [UpdateMostExpensiveProductIndex, hpa]
    · right
      refine ⟨hpa, ?_, 0, by simp, ?_, ?_⟩
      · intro i h hacti
        have hi0 : i = 0 := by
          simp at h
          omega
        subst hi0
        simp [List.get_eq_getElem]
      · simp [List.get_eq_getElem]
      · intro i hi
        omega
  · subst hs
    have hupd : UpdateMostExpensiveProductIndex (some m) p =
        if p.price > m.price then some p else some m := by
      simp [UpdateMostExpensiveProductIndex, hpa]
    rw [hupd]
    by_cases hcmp : p.price > m.price
    · rw [if_pos hcmp]
      right
      refine ⟨p, rfl, ?_⟩
      right
      refine ⟨hpa, ?_, d.length, by simp, hgetp (by simp), ?_⟩
      · intro i h hacti
        rcases Nat.lt_or_ge i d.length with hi | hi
        · rw [hgetlt i hi h] at hacti ⊢
          rcases hgood with ⟨hzero, hall⟩ | ⟨_, hmax, _⟩
          · rw [hall i hi] at hacti
            cases hacti
          · calc (d.get ⟨i, hi⟩).price ≤ m.price := hmax i hi hacti
              _ ≤ p.price := le_of_lt hcmp
        · have : i = d.length := by
            have := h
            simp at this
            omega
          subst this
          rw [hgetp h]
      · intro i hi hacti
        rw [hgetlt i hi (by simp; omega)] at hacti ⊢
        rcases hgood with ⟨hzero, hall⟩ | ⟨_, hmax, _⟩
        · rw [hall i hi] at hacti
          cases hacti
        · exact lt_of_le_of_lt (hmax i hi hacti) hcmp
    · rw [if_neg hcmp]
      right
      refine ⟨m, rfl, ?_⟩
      rcases hgood with ⟨hzero, hall⟩ | ⟨hmact, hmax, j, hj, hget, hfirst⟩
      · exfalso
        rw [hzero] at hcmp
        simp only [zeroProduct] at hcmp
        omega
      · right
        refine ⟨hmact, ?_, j, by simp; omega, ?_, ?_⟩
        · intro i h hacti
          rcases Nat.lt_or_ge i d.length with hi | hi
          · rw [hgetlt i hi h] at hacti ⊢
            exact hmax i hi hacti
          · have : i = d.length := by
              have := h
              simp at this
              omega
            subst this
            rw [hgetp h]
            omega
        · rw [hgetlt j hj (by simp; omega)]
          exact hget
        · intro i hi hacti
          have hilt : i < d.length := Nat.lt_trans hi hj
          rw [hgetlt i hilt (by simp; omega)] at hacti ⊢
          exact hfirst i hi hacti

theorem productSize_pos : 0 < productSize := by norm_num [productSize]

theorem rangeIndex_sorted (n : Nat) : IndexSorted (rangeIndex n) := by
  rw [rangeIndex, IndexSorted, List.pairwise_map]
  simpa using List.pairwise_lt_range n

theorem rangeIndex_succ (n : Nat) :
    rangeIndex (n + 1) = rangeIndex n ++ [⟨n, productSize * n⟩] := by
  rw [rangeIndex, List.range_succ, List.map_append, rangeIndex]
  rfl

theorem rangeIndex_length (n : Nat) : (rangeIndex n).length = n := by
  simp [rangeIndex]

theorem mem_rangeIndex (n k : Nat) (hk : k < n) :
    (⟨k, productSize * k⟩ : IndexEntry) ∈ rangeIndex n :=
  List.mem_map.mpr ⟨k, List.mem_range.mpr hk, rfl⟩

theorem rangeIndex_no_id (n k : Nat) (hk : n ≤ k) :
    ∀ e ∈ rangeIndex n, e.id ≠ k := by
  intro e he
  obtain ⟨i, hi, rfl⟩ := List.mem_map.mp he
  have := List.mem_range.mp hi
  simp only []
  omega

theorem numInserts_append (ops1 ops2 : List Op) :
    numInserts (ops1 ++ ops2) = numInserts ops1 + numInserts ops2 := by
  induction ops1 with
  | nil => simp [numInserts]
  | cons op rest ih =>
      cases op <;> simp [numInserts, ih] <;> omega

theorem insertFields_append_lt (ops1 ops2 : List Op) (k : Nat)
    (hk : k < numInserts ops1) :
    insertFields (ops1 ++ ops2) k = insertFields ops1 k := by
  induction ops1 generalizing k with
  | nil => simp [numInserts] at hk
  | cons op rest ih =>
      cases op with
      | insert f =>
          by_cases h0 : k = 0
          · subst h0
            simp [insertFields]
          · simp only [List.cons_append, insertFields, if_neg h0]
            exact ih (k - 1) (by simp [numInserts] at hk; omega)
      | softDelete j =>
          simp only [List.cons_append, insertFields]
          exact ih k (by simpa [numInserts] using hk)
      | recompute =>
          simp only [List.cons_append, insertFields]
          exact ih k (by simpa [numInserts] using hk)
      | purge j =>
          simp only [List.cons_append, insertFields]
          exact ih k (by simpa [numInserts] using hk)

theorem insertFields_append_insert (ops : List Op) (f : Fields) :
    insertFields (ops ++ [.insert f]) (numInserts ops) = some f := by
  induction ops with
  | nil => simp [insertFields, numInserts]
  | cons op rest ih =>
      cases op with
      | insert g =>
          simp only [List.cons_append, insertFields, numInserts]
          rw [if_neg (by omega)]
          simpa using ih
      | softDelete j => simpa only [List.cons_append, insertFields, numInserts] using ih
      | recompute => simpa only [List.cons_append, insertFields, numInserts] using ih
      | purge j => simpa only [List.cons_append, insertFields, numInserts] using ih

theorem insertFields_lt (ops : List Op) (k : Nat) (f : Fields)
    (h : insertFields ops k = some f) : k < numInserts ops := by
  induction ops generalizing k with
  | nil => simp [insertFields] at h
  | cons op rest ih =>
      cases op with
      | insert g =>
          by_cases h0 : k = 0
          · subst h0
            simp [numInserts]
          · have h2 : insertFields rest (k - 1) = some f := by
              rw [show insertFields (Op.insert g :: rest) k =
                if k = 0 then some g else insertFields rest (k - 1) from rfl,
                if_neg h0] at h
              exact h
            have := ih (k - 1) h2
            simp only [numInserts]
            omega
      | softDelete j =>
          have := ih k h
          simpa [numInserts] using this
      | recompute =>
          have := ih k h
          simpa [numInserts] using this
      | purge j =>
          have := ih k h
          simpa [numInserts] using this

theorem posPrices_insertFields (ops : List Op) (k : Nat) (f : Fields)
    (hpos : posPrices ops = true) (h : insertFields ops k = some f) :
    0 < f.price := by
  induction ops generalizing k with
  | nil => simp [insertFields] at h
  | cons op rest ih =>
      have hrest : posPrices rest = true := by
        rw [posPrices] at hpos
        simp only [List.all_cons, Bool.and_eq_true] at hpos
        exact hpos.2
      cases op with
      | insert g =>
          by_cases h0 : k = 0
          · subst h0
            have h2 : some g = some f := by
              rw [show insertFields (Op.insert g :: rest) 0 = some g from rfl] at h
              exact h
            cases h2
            rw [posPrices] at hpos
            simp only [List.all_cons, Bool.and_eq_true] at hpos
            simpa using hpos.1
          · have h2 : insertFields rest (k - 1) = some f := by
              rw [show insertFields (Op.insert g :: rest) k =
                if k = 0 then some g else insertFields rest (k - 1) from rfl,
                if_neg h0] at h
              exact h
            exact ih (k - 1) hrest h2
      | softDelete j => exact ih k hrest h
      | recompute => exact ih k hrest h
      | purge j => exact ih k hrest h

theorem isDeletedFrom_append (ops1 ops2 : List Op) (k seen : Nat) :
    isDeletedFrom (ops1 ++ ops2) k seen =
      (isDeletedFrom ops1 k seen || isDeletedFrom ops2 k (seen + numInserts ops1)) := by
  induction ops1 generalizing seen with
  | nil => simp [isDeletedFrom, numInserts]
  | cons op rest ih =>
      cases op with
      | insert f =>
          simp only [List.cons_append, isDeletedFrom, numInserts, List.append_eq, ih]
          have h1 : seen + 1 + numInserts rest = seen + (numInserts rest + 1) := by omega
          rw [h1]
      | softDelete j =>
          simp only [List.cons_append, isDeletedFrom, numInserts, List.append_eq, ih,
            Bool.or_assoc]
      | recompute =>
          simp only [List.cons_append, isDeletedFrom, numInserts, List.append_eq, ih]
      | purge j =>
          simp only [List.cons_append, isDeletedFrom, numInserts, List.append_eq, ih]

theorem isDeletedFrom_ge (ops : List Op) (k seen : Nat)
    (h : numInserts ops + seen ≤ k) : isDeletedFrom ops k seen = false := by
  induction ops generalizing seen with
  | nil => rw [isDeletedFrom]
  | cons op rest ih =>
      cases op with
      | insert f =>
          rw [isDeletedFrom]
          exact ih (seen + 1) (by simp [numInserts] at h; omega)
      | softDelete j =>
          rw [isDeletedFrom]
          have h1 : decide (k < seen) = false := by
            simp only [numInserts] at h
            simp
            omega
          rw [h1]
          simp only [Bool.and_false, Bool.false_or]
          exact ih seen (by simpa [numInserts] using h)
      | recompute =>
          rw [isDeletedFrom]
          exact ih seen (by simpa [numInserts] using h)
      | purge j =>
          rw [isDeletedFrom]
          exact ih seen (by simpa [numInserts] using h)

theorem noPurge_append (ops1 ops2 : List Op) :
    noPurge (ops1 ++ ops2) = (noPurge ops1 && noPurge ops2) := by
  simp [noPurge, List.all_append]

theorem posPrices_append (ops1 ops2 : List Op) :
    posPrices (ops1 ++ ops2) = (posPrices ops1 && posPrices ops2) := by
  simp [posPrices, List.all_append]

theorem applyOps_append_op (ops : List Op) (op : Op) :
    applyOps (ops ++ [op]) = applyOp (applyOps ops) op := by
  rw [applyOps, applyOps, List.foldl_append]
  rfl

theorem isDeleted_append_insert (ops : List Op) (f : Fields) (k : Nat) :
    isDeleted (ops ++ [.insert f]) k = isDeleted ops k := by
  rw [isDeleted, isDeletedFrom_append, isDeleted,
    show isDeletedFrom [Op.insert f] k (0 + numInserts ops) = false from rfl,
    Bool.or_false]

theorem isDeleted_append_softDelete (ops : List Op) (j k : Nat) :
    isDeleted (ops ++ [.softDelete j]) k =
      (isDeleted ops k || (j == k && decide (k < numInserts ops))) := by
  rw [isDeleted, isDeletedFrom_append, isDeleted]
  have h1 : isDeletedFrom [Op.softDelete j] k (0 + numInserts ops) =
      (j == k && decide (k < 0 + numInserts ops)) := by
    rw [isDeletedFrom, isDeletedFrom, Bool.or_false]
  rw [h1, Nat.zero_add]

theorem isDeleted_append_recompute (ops : List Op) (k : Nat) :
    isDeleted (ops ++ [.recompute]) k = isDeleted ops k := by
  rw [isDeleted, isDeletedFrom_append, isDeleted,
    show isDeletedFrom [Op.recompute] k (0 + numInserts ops) = false from rfl,
    Bool.or_false]

theorem isDeleted_ge (ops : List Op) (k : Nat) (h : numInserts ops ≤ k) :
    isDeleted ops k = false :=
  isDeletedFrom_ge ops k 0 (by omega)

theorem storeInv_pos_data (ops : List Op) (s : StoreState)
    (hinv : StoreInv ops s) (hpos : posPrices ops = true) :
    ∀ p ∈ s.data, 0 < p.price := by
  intro p hp
  obtain ⟨⟨k, hk⟩, hget⟩ := List.mem_iff_get.mp hp
  obtain ⟨f, hf, hrec⟩ := hinv.2.2.1 k hk
  have hpf := posPrices_insertFields ops k f hpos hf
  have hpeq : p = Product.mk k f.categoryID f.brand f.price (!(isDeleted ops k)) :=
    hget.symm.trans hrec
  rw [hpeq]
  exact hpf

theorem readFromDataFile_aligned (d : List Product) (j : Nat) (hj : j < d.length) :
    ReadFromDataFile d (productSize * j) = .returned (d.get ⟨j, hj⟩) := by
  have h1 : (productSize * j) % productSize = 0 := Nat.mul_mod_right _ _
  have h2 : productSize * j / productSize = j :=
    Nat.mul_div_cancel_left j productSize_pos
  rw [ReadFromDataFile, dif_pos (⟨h1, by rw [h2]; exact hj⟩ :
    (productSize * j) % productSize = 0 ∧ productSize * j / productSize < d.length)]
  exact congrArg Outcome.returned
    (get_eq_of_get?_eq d _ j _ (List.get?_eq_get hj) h2)

theorem buildProduct_id (ops : List Op) (s : StoreState) (hinv : StoreInv ops s)
    (hb : s.data.length < 4294967296) (f : Fields) :
    (BuildProduct s.data f).id = s.data.length := by
  rw [BuildProduct, ReadLastProduct]
  rcases hd : s.data.getLast? with _ | last
  · have hnil : s.data = [] := by
      cases hdata : s.data with
      | nil => rfl
      | cons a rest =>
          rw [hdata] at hd
          simp [List.getLast?_concat, List.getLast?] at hd
    rw [hnil]
    rfl
  · have hne : s.data ≠ [] := by
      intro hnil
      rw [hnil] at hd
      cases hd
    have hpos : 0 < s.data.length := List.length_pos.mpr hne
    have hq : s.data.get? (s.data.length - 1) = some last := by
      rw [← List.getLast?_eq_get?]
      exact hd
    have hl : s.data.length - 1 < s.data.length := by omega
    have hlast : s.data.get ⟨s.data.length - 1, hl⟩ = last :=
      get_eq_of_get?_eq s.data _ _ hl hq rfl
    obtain ⟨g, _, hrec⟩ := hinv.2.2.1 (s.data.length - 1) hl
    have : last = Product.mk (s.data.length - 1) g.categoryID g.brand g.price
        (!(isDeleted ops (s.data.length - 1))) := hlast.symm.trans hrec
    rw [this]
    simp only []
    omega

theorem step_insert (ops : List Op) (f : Fields) (s : StoreState)
    (hinv : StoreInv ops s)
    (hslotinv : posPrices ops = true → SlotInv s.data s.slot)
    (hb : s.data.length < 4294967296) :
    StoreInv (ops ++ [.insert f]) (InsertProduct s f) ∧
    (posPrices (ops ++ [.insert f]) = true →
      SlotInv (InsertProduct s f).data (InsertProduct s f).slot) := by
  obtain ⟨hlen, hidx, hrec, hslot⟩ := hinv
  have hbid : (BuildProduct s.data f).id = s.data.length := buildProduct_id ops s
    ⟨hlen, hidx, hrec, hslot⟩ hb f
  have hbact : (BuildProduct s.data f).active = true := rfl
  have hbuild : BuildProduct s.data f =
      Product.mk s.data.length f.categoryID f.brand f.price true :=
    congrArg (fun i => Product.mk i f.categoryID f.brand f.price true) hbid
  have hins : InsertProduct s f = StoreState.mk
      (s.data ++ [BuildProduct s.data f])
      (s.index ++ [⟨(BuildProduct s.data f).id, productSize * s.data.length⟩])
      (UpdateMostExpensiveProductIndex s.slot (BuildProduct s.data f)) := rfl
  rw [hins]
  have hdlen : (s.data ++ [BuildProduct s.data f]).length = s.data.length + 1 := by
    simp
  constructor
  · refine ⟨?_, ?_, ?_, ?_⟩
    · simp only [hdlen, numInserts_append, hlen]
      rfl
    · simp only [hdlen, hidx, hbid, rangeIndex_succ]
    · intro k hk
      simp only [hdlen] at hk
      rcases Nat.lt_or_ge k s.data.length with hlt | hge
      · obtain ⟨g, hg, hr⟩ := hrec k hlt
        refine ⟨g, ?_, ?_⟩
        · rw [insertFields_append_lt ops [Op.insert f] k (by omega)]
          exact hg
        · have hq : (s.data ++ [BuildProduct s.data f]).get ⟨k, by simpa using hk⟩ =
              s.data.get ⟨k, hlt⟩ := by
            simp [List.get_eq_getElem, List.getElem_append_left hlt]
          rw [hq, hr, isDeleted_append_insert]
      · have hkeq : k = s.data.length := by omega
        subst hkeq
        refine ⟨f, ?_, ?_⟩
        · rw [hlen, insertFields_append_insert]
        · have hgq : (s.data ++ [BuildProduct s.data f]).get
              ⟨s.data.length, by simpa using hk⟩ = BuildProduct s.data f := by
            simp [List.get_eq_getElem]
          rw [hgq]
          have hdel : isDeleted (ops ++ [Op.insert f]) s.data.length = false := by
            rw [isDeleted_append_insert]
            exact isDeleted_ge ops s.data.length (by omega)
          rw [hdel, hbuild]
          rfl
    · intro _
      exact updateMostExpensive_isSome _ _ hbact
  · intro hpp
    rw [posPrices_append] at hpp
    have hpp1 : posPrices ops = true := by
      cases hb : posPrices ops
      · rw [hb] at hpp
        cases hpp
      · rfl
    have hppf : 0 < f.price := by
      have h2 : posPrices [Op.insert f] = true := by
        cases hb : posPrices [Op.insert f]
        · rw [hb, Bool.and_false] at hpp
          cases hpp
        · rfl
      rw [posPrices] at h2
      simpa using h2
    exact slotInv_update s.data s.slot (BuildProduct s.data f)
      (hslotinv hpp1) hbact hppf

theorem step_softDelete (ops : List Op) (j : Nat) (s : StoreState)
    (hinv : StoreInv ops s)
    (hslotinv : posPrices ops = true → SlotInv s.data s.slot) :
    StoreInv (ops ++ [.softDelete j]) ((RemoveProduct s j).getD s) ∧
    (posPrices (ops ++ [.softDelete j]) = true →
      SlotInv ((RemoveProduct s j).getD s).data ((RemoveProduct s j).getD s).slot) := by
  obtain ⟨hlen, hidx, hrec, hslot⟩ := hinv
  have hpp_eq : posPrices (ops ++ [Op.softDelete j]) = posPrices ops := by
    rw [posPrices_append, show posPrices [Op.softDelete j] = true from rfl, Bool.and_true]
  have hnum : numInserts (ops ++ [Op.softDelete j]) = numInserts ops := by
    rw [numInserts_append]
    rfl
  rcases Nat.lt_or_ge j s.data.length with hjn | hjn
  · -- j is present in the index
    have hsorted : IndexSorted s.index := by
      rw [hidx]
      exact rangeIndex_sorted _
    have hmem : (⟨j, productSize * j⟩ : IndexEntry) ∈ s.index := by
      rw [hidx]
      exact mem_rangeIndex _ j hjn
    have hsearch : BinarySearchOnDisk s.index j = (productSize * j, true) :=
      BinarySearchOnDisk_finds s.index j _ hsorted hmem
    have hread : ReadFromDataFile s.data (productSize * j) =
        .returned (s.data.get ⟨j, hjn⟩) := readFromDataFile_aligned s.data j hjn
    obtain ⟨g, hg, hrj⟩ := hrec j hjn
    have hdiv : productSize * j / productSize = j :=
      Nat.mul_div_cancel_left j productSize_pos
    have hslot_some : s.slot.isSome = true := hslot (by omega)
    obtain ⟨m, hm⟩ := Option.isSome_iff_exists.mp hslot_some
    cases hdel : isDeleted ops j with
    | false =>
      -- the record is still active: it is rewritten in place as inactive
      have hprod : s.data.get ⟨j, hjn⟩ =
          Product.mk j g.categoryID g.brand g.price true := by
        rw [hrj, hdel]
        rfl
      have hread' : ReadFromDataFile s.data (productSize * j) =
          .returned (Product.mk j g.categoryID g.brand g.price true) := by
        rw [hread, hprod]
      have hrp : RemoveProduct s j =
          (if j = m.id then
            some (StoreState.mk
              (s.data.set j (Product.mk j g.categoryID g.brand g.price false))
              s.index
              (some (RecalculateMostExpensiveProduct
                (s.data.set j (Product.mk j g.categoryID g.brand g.price false)))))
          else
            some (StoreState.mk
              (s.data.set j (Product.mk j g.categoryID g.brand g.price false))
              s.index (some m))) := by
        simp only [RemoveProduct, hsearch, hread', hdiv, hm]
        rw [if_pos trivial]
      have hdel' : isDeleted (ops ++ [Op.softDelete j]) j = true := by
        rw [isDeleted_append_softDelete, hdel]
        simp only [Bool.false_or, beq_self_eq_true, Bool.true_and]
        rw [← hlen]
        simp [hjn]
      have hrecs : ∀ k, (hk : k < (s.data.set j
            (Product.mk j g.categoryID g.brand g.price false)).length) →
          ∃ f, insertFields (ops ++ [Op.softDelete j]) k = some f ∧
            (s.data.set j (Product.mk j g.categoryID g.brand g.price false)).get ⟨k, hk⟩ =
              Product.mk k f.categoryID f.brand f.price
                (!(isDeleted (ops ++ [Op.softDelete j]) k)) := by
        intro k hk
        have hk' : k < s.data.length := by simpa using hk
        by_cases hkj : k = j
        · subst hkj
          refine ⟨g, ?_, ?_⟩
          · rw [insertFields_append_lt ops _ k (by omega), hg]
          · have hq : (s.data.set k (Product.mk k g.categoryID g.brand g.price false)).get
                ⟨k, hk⟩ = Product.mk k g.categoryID g.brand g.price false := by
              simp [List.get_eq_getElem, List.getElem_set]
            rw [hq, hdel']
            rfl
        · obtain ⟨f, hf, hr⟩ := hrec k hk'
          refine ⟨f, ?_, ?_⟩
          · rw [insertFields_append_lt ops _ k (by omega), hf]
          · have hq : (s.data.set j (Product.mk j g.categoryID g.brand g.price false)).get
                ⟨k, hk⟩ = s.data.get ⟨k, hk'⟩ := by
              simp only [List.get_eq_getElem, List.getElem_set]
              rw [if_neg (fun he => hkj he.symm)]
            have hdk : isDeleted (ops ++ [Op.softDelete j]) k = isDeleted ops k := by
              rw [isDeleted_append_softDelete]
              have : (j == k) = false := by
                simp
                exact fun he => hkj he.symm
              rw [this, Bool.false_and, Bool.or_false]
            rw [hq, hr, hdk]
      have hslotinv' : posPrices (ops ++ [Op.softDelete j]) = true →
          ∀ q ∈ s.data.set j (Product.mk j g.categoryID g.brand g.price false),
            0 < q.price := by
        intro hpp q hq
        rw [hpp_eq] at hpp
        have hposd := storeInv_pos_data ops s ⟨hlen, hidx, hrec, hslot⟩ hpp
        rcases List.mem_or_eq_of_mem_set hq with h | h
        · exact hposd q h
        · subst h
          have := hposd (s.data.get ⟨j, hjn⟩) (s.data.get_mem _ _)
          rw [hprod] at this
          exact this
      by_cases hidm : j = m.id
      · rw [hrp, if_pos hidm]
        constructor
        · refine ⟨?_, ?_, hrecs, ?_⟩
          · simp only [Option.getD_some]
            rw [List.length_set, hlen, hnum]
          · simp only [Option.getD_some]
            rw [List.length_set, hidx]
          · intro _
            rfl
        · intro hpp
          simp only [Option.getD_some]
          right
          exact ⟨_, rfl, recalc_good _ (hslotinv' hpp)⟩
      · rw [hrp, if_neg hidm]
        constructor
        · refine ⟨?_, ?_, hrecs, ?_⟩
          · simp only [Option.getD_some]
            rw [List.length_set, hlen, hnum]
          · simp only [Option.getD_some]
            rw [List.length_set, hidx]
          · intro _
            rfl
        · intro hpp
          simp only [Option.getD_some]
          have hpp0 : posPrices ops = true := by rw [← hpp_eq]; exact hpp
          have hsl := hslotinv hpp0
          rcases hsl with ⟨hnil, _⟩ | ⟨m', hm', hgood⟩
          · rw [hnil] at hjn
            simp at hjn
          · have hmm : m' = m := by
              rw [hm] at hm'
              exact (Option.some.inj hm').symm
            rw [hmm] at hgood
            right
            refine ⟨m, rfl, ?_⟩
            have hmact : m.active = true := by
              rcases hgood with ⟨_, hall⟩ | ⟨hmact, _⟩
              · have := hall j hjn
                rw [hprod] at this
                cases this
              · exact hmact
            have hne : m ≠ s.data.get ⟨j, hjn⟩ := by
              intro he
              apply hidm
              rw [he, hprod]
            exact goodslot_deactivate s.data m
              (Product.mk j g.categoryID g.brand g.price false) j hjn hgood hmact hne rfl
    | true =>
      -- the record is already inactive: nothing is written
      have hprod : s.data.get ⟨j, hjn⟩ =
          Product.mk j g.categoryID g.brand g.price false := by
        rw [hrj, hdel]
        rfl
      have hread' : ReadFromDataFile s.data (productSize * j) =
          .returned (Product.mk j g.categoryID g.brand g.price false) := by
        rw [hread, hprod]
      have hrp : RemoveProduct s j = some s := by
        simp only [RemoveProduct, hsearch, hread']
        simp
      rw [hrp]
      simp only [Option.getD_some]
      constructor
      · refine ⟨by rw [hnum]; exact hlen, hidx, ?_, hslot⟩
        intro k hk
        obtain ⟨f, hf, hr⟩ := hrec k hk
        refine ⟨f, ?_, ?_⟩
        · rw [insertFields_append_lt ops _ k (by omega), hf]
        · rw [hr]
          by_cases hkj : k = j
          · subst hkj
            have h1 : isDeleted (ops ++ [Op.softDelete k]) k = true := by
              rw [isDeleted_append_softDelete, hdel]
              rfl
            rw [h1, hdel]
          · have h1 : isDeleted (ops ++ [Op.softDelete j]) k = isDeleted ops k := by
              rw [isDeleted_append_softDelete]
              have : (j == k) = false := by
                simp
                exact fun he => hkj he.symm
              rw [this, Bool.false_and, Bool.or_false]
            rw [h1]
      · intro hpp
        rw [hpp_eq] at hpp
        exact hslotinv hpp
  · -- j is not in the index: the delete fails with not-found
    have habs : ∀ e ∈ s.index, e.id ≠ j := by
      rw [hidx]
      exact rangeIndex_no_id s.data.length j hjn
    have hsearch : BinarySearchOnDisk s.index j = (0, false) :=
      BinarySearchOnDisk_not_found s.index j habs
    have hrp : RemoveProduct s j = none := by
      simp only [RemoveProduct, hsearch]
    rw [hrp]
    simp only [Option.getD_none]
    constructor
    · refine ⟨by rw [hnum]; exact hlen, hidx, ?_, hslot⟩
      intro k hk
      obtain ⟨f, hf, hr⟩ := hrec k hk
      refine ⟨f, ?_, ?_⟩
      · rw [insertFields_append_lt ops _ k (by omega), hf]
      · rw [hr]
        have h1 : isDeleted (ops ++ [Op.softDelete j]) k = isDeleted ops k := by
          rw [isDeleted_append_softDelete]
          have : (j == k) = false := by
            simp
            omega
          rw [this, Bool.false_and, Bool.or_false]
        rw [h1]
    · intro hpp
      rw [hpp_eq] at hpp
      exact hslotinv hpp

theorem step_recompute (ops : List Op) (s : StoreState)
    (hinv : StoreInv ops s)
    (hslotinv : posPrices ops = true → SlotInv s.data s.slot) :
    StoreInv (ops ++ [.recompute]) (RecomputeSlot s) ∧
    (posPrices (ops ++ [.recompute]) = true →
      SlotInv (RecomputeSlot s).data (RecomputeSlot s).slot) := by
  obtain ⟨hlen, hidx, hrec, hslot⟩ := hinv
  have hpp_eq : posPrices (ops ++ [Op.recompute]) = posPrices ops := by
    rw [posPrices_append, show posPrices [Op.recompute] = true from rfl, Bool.and_true]
  constructor
  · refine ⟨?_, hidx, ?_, ?_⟩
    · show s.data.length = _
      rw [numInserts_append, hlen]
      rfl
    · intro k hk
      have hk' : k < s.data.length := hk
      obtain ⟨f, hf, hr⟩ := hrec k hk'
      refine ⟨f, by rw [insertFields_append_lt ops _ k (by omega)]; exact hf, ?_⟩
      show s.data.get ⟨k, hk'⟩ = _
      rw [hr, isDeleted_append_recompute]
    · intro _
      rfl
  · intro hpp
    rw [hpp_eq] at hpp
    right
    exact ⟨_, rfl, recalc_good s.data
      (storeInv_pos_data ops s ⟨hlen, hidx, hrec, hslot⟩ hpp)⟩

theorem applyOps_invariant (ops : List Op) (hnp : noPurge ops = true)
    (hb : numInserts ops ≤ 4294967296) :
    StoreInv ops (applyOps ops) ∧
    (posPrices ops = true → SlotInv (applyOps ops).data (applyOps ops).slot) := by
  induction ops using List.reverseRecOn with
  | nil =>
      constructor
      · refine ⟨rfl, rfl, ?_, ?_⟩
        · intro k hk
          simp [applyOps, emptyStore] at hk
        · intro h
          simp [applyOps, emptyStore] at h
      · intro _
        left
        exact ⟨rfl, rfl⟩
  | append_singleton ops op ih =>
      rw [noPurge_append] at hnp
      have hnp1 : noPurge ops = true := by
        cases hq : noPurge ops
        · rw [hq] at hnp
          cases hnp
        · rfl
      rw [numInserts_append] at hb
      have hb1 : numInserts ops ≤ 4294967296 := by omega
      obtain ⟨hinv, hslotinv⟩ := ih hnp1 hb1
      rw [applyOps_append_op]
      cases op with
      | insert f =>
          have hlt : (applyOps ops).data.length < 4294967296 := by
            rw [hinv.1]
            have h1 : numInserts [Op.insert f] = 1 := rfl
            omega
          exact step_insert ops f _ hinv hslotinv hlt
      | softDelete j => exact step_softDelete ops j _ hinv hslotinv
      | recompute => exact step_recompute ops _ hinv hslotinv
      | purge j =>
          exfalso
          rw [show noPurge [Op.purge j] = false from rfl, Bool.and_false] at hnp
          cases hnp

theorem removeProductFromDataFile_gt (d : List Product) (cur target : Nat)
    (h : target < cur) : RemoveProductFromDataFile d cur target = d := by
  induction d generalizing cur with
  | nil => rw [RemoveProductFromDataFile]
  | cons p rest ih =>
      rw [RemoveProductFromDataFile, if_neg (by omega)]
      rw [ih (cur + productSize) (by have := productSize_pos; omega)]

theorem removeProductFromDataFile_eq_eraseIdx (d : List Product) (i j : Nat)
    (hij : i ≤ j) :
    RemoveProductFromDataFile d (productSize * i) (productSize * j) =
      d.eraseIdx (j - i) := by
  induction d generalizing i with
  | nil =>
      rw [RemoveProductFromDataFile]
      simp
  | cons p rest ih =>
      by_cases hji : j = i
      · subst hji
        rw [RemoveProductFromDataFile, if_pos rfl]
        rw [removeProductFromDataFile_gt rest _ _ (by have := productSize_pos; omega)]
        simp
      · have hlt : i < j := by omega
        rw [RemoveProductFromDataFile, if_neg (by
          intro he
          have := Nat.eq_of_mul_eq_mul_left productSize_pos he
          omega)]
        have h2 : productSize * i + productSize = productSize * (i + 1) := by ring
        rw [h2, ih (i + 1) (by omega)]
        have h3 : j - i = (j - (i + 1)) + 1 := by omega
        rw [h3]
        rfl

theorem removeFromIndexFile_length (idx : List IndexEntry) (k off : Nat)
    (hsorted : IndexSorted idx) (hmem : (⟨k, off⟩ : IndexEntry) ∈ idx) :
    (RemoveFromIndexFile idx k).length + 1 = idx.length := by
  obtain ⟨pre, post, hdecomp⟩ := List.append_of_mem hmem
  subst hdecomp
  rw [RemoveFromIndexFile, List.filter_append, List.filter_cons]
  rw [IndexSorted, List.pairwise_append] at hsorted
  obtain ⟨hp1, hp2, hp3⟩ := hsorted
  have hpre : pre.filter (fun e => e.id != k) = pre := by
    rw [List.filter_eq_self]
    intro a ha
    have hak : a.id < k := hp3 a ha ⟨k, off⟩ (List.mem_cons_self _ _)
    simp only [bne_iff_ne, ne_eq]
    omega
  have hpost : post.filter (fun e => e.id != k) = post := by
    rw [List.filter_eq_self]
    intro a ha
    have hak : k < a.id := (List.pairwise_cons.mp hp2).1 a ha
    simp only [bne_iff_ne, ne_eq]
    omega
  have hmid : ((⟨k, off⟩ : IndexEntry).id != k) = false := by simp
  rw [hmid, hpre, hpost]
  simp
  omega

theorem removeFromIndexFile_sorted (idx : List IndexEntry) (k : Nat)
    (hsorted : IndexSorted idx) : IndexSorted (RemoveFromIndexFile idx k) :=
  List.Pairwise.sublist (List.filter_sublist idx) hsorted

theorem removeFromIndexFile_no_id (idx : List IndexEntry) (k : Nat) :
    ∀ e ∈ RemoveFromIndexFile idx k, e.id ≠ k := by
  intro e he
  have := List.of_mem_filter he
  simpa using this

theorem removeFromIndexFile_mem (idx : List IndexEntry) (k : Nat)
    (e : IndexEntry) (he : e ∈ idx) (hne : e.id ≠ k) :
    e ∈ RemoveFromIndexFile idx k := by
  rw [RemoveFromIndexFile, List.mem_filter]
  exact ⟨he, by simpa using hne⟩

theorem not_mem_eraseIdx_of_nodup (d : List Product) (q : Nat) (hq : q < d.length)
    (hnd : d.Nodup) : d.get ⟨q, hq⟩ ∉ d.eraseIdx q := by
  rw [List.eraseIdx_eq_take_drop_succ]
  intro hmem
  rcases List.mem_append.mp hmem with h | h
  · obtain ⟨⟨i, hi⟩, hgi⟩ := List.mem_iff_get.mp h
    have hiq : i < q := by
      have := hi
      rw [List.length_take] at this
      omega
    have hilen : i < d.length := by omega
    have hgi2 : d.get ⟨i, hilen⟩ = d.get ⟨q, hq⟩ := by
      rw [← hgi]
      simp [List.get_eq_getElem, List.getElem_take]
    have := (hnd.get_inj_iff).mp hgi2
    have : i = q := congrArg Fin.val this
    omega
  · obtain ⟨⟨i, hi⟩, hgi⟩ := List.mem_iff_get.mp h
    have hilen : q + 1 + i < d.length := by
      have := hi
      rw [List.length_drop] at this
      omega
    have hgi2 : d.get ⟨q + 1 + i, hilen⟩ = d.get ⟨q, hq⟩ := by
      rw [← hgi]
      simp [List.get_eq_getElem, List.getElem_drop]
    have := (hnd.get_inj_iff).mp hgi2
    have : q + 1 + i = q := congrArg Fin.val this
    omega

theorem eraseIdx_get?_lt {α : Type} (d : List α) (q j : Nat) (hj : j < q) :
    (d.eraseIdx q).get? j = d.get? j := by
  rw [List.eraseIdx_eq_take_drop_succ]
  rcases Nat.lt_or_ge j d.length with hjd | hjd
  · have hjt : j < (d.take q).length := by
      rw [List.length_take]
      omega
    rw [List.get?_append hjt, List.get?_eq_get hjt, List.get?_eq_get hjd]
    congr 1
    simp [List.get_eq_getElem, List.getElem_take]
  · have h1 : d.get? j = none := List.get?_eq_none.mpr (by omega)
    have h2 : (List.take q d ++ List.drop (q + 1) d).get? j = none := by
      apply List.get?_eq_none.mpr
      rw [List.length_append, List.length_take, List.length_drop]
      omega
    rw [h1, h2]

theorem eraseIdx_get?_gt {α : Type} (d : List α) (q j : Nat) (hq : q < d.length)
    (h1 : q < j) (h2 : j < d.length) :
    (d.eraseIdx q).get? (j - 1) = d.get? j := by
  rw [List.eraseIdx_eq_take_drop_succ]
  have hlt : (d.take q).length = q := by
    rw [List.length_take]
    omega
  have hge : (d.take q).length ≤ j - 1 := by omega
  rw [List.get?_append_right hge]
  have hdrop : j - 1 - (d.take q).length + (q + 1) = j := by omega
  have hj3 : j - 1 - (d.take q).length < (d.drop (q + 1)).length := by
    rw [List.length_drop]
    omega
  rw [List.get?_eq_get hj3, List.get?_eq_get h2]
  congr 1
  simp only [List.get_eq_getElem, List.getElem_drop]
  congr 1
  omega

theorem numInserts_map_insert (fs : List Fields) :
    numInserts (fs.map Op.insert) = fs.length := by
  induction fs with
  | nil => rfl
  | cons f rest ih => simp [numInserts, ih]

theorem applyInserts_wrapped (fs : List Fields) :
    (applyOps (fs.map Op.insert)).data.map (fun p => p.id) =
      (List.range fs.length).map (fun i => i % 4294967296) ∧
    (applyOps (fs.map Op.insert)).index =
      (List.range fs.length).map (fun i =>
        IndexEntry.mk (i % 4294967296) (productSize * i)) := by
  induction fs using List.reverseRecOn with
  | nil => exact ⟨rfl, rfl⟩
  | append_singleton fs f ih =>
      obtain ⟨hids, hidx⟩ := ih
      have happ : applyOps ((fs ++ [f]).map Op.insert) =
          applyOp (applyOps (fs.map Op.insert)) (Op.insert f) := by
        rw [List.map_append]
        exact applyOps_append_op (fs.map Op.insert) (Op.insert f)
      have hlen : (applyOps (fs.map Op.insert)).data.length = fs.length := by
        have h := congrArg List.length hids
        simpa using h
      have hid : (BuildProduct (applyOps (fs.map Op.insert)).data f).id =
          fs.length % 4294967296 := by
        rw [BuildProduct, ReadLastProduct]
        rcases hgl : (applyOps (fs.map Op.insert)).data.getLast? with _ | last
        · have hnil : (applyOps (fs.map Op.insert)).data = [] := by
            cases hdata : (applyOps (fs.map Op.insert)).data with
            | nil => rfl
            | cons a rest =>
                rw [hdata] at hgl
                simp [List.getLast?_concat, List.getLast?] at hgl
          have h0 : fs.length = 0 := by
            rw [← hlen, hnil]
            rfl
          rw [h0]
        · have hne : (applyOps (fs.map Op.insert)).data ≠ [] := by
            intro hnil
            rw [hnil] at hgl
            cases hgl
          have hpos : 0 < fs.length := by
            rw [← hlen]
            exact List.length_pos.mpr hne
          have hq : (applyOps (fs.map Op.insert)).data.get? (fs.length - 1) =
              some last := by
            rw [← hlen, ← List.getLast?_eq_get?]
            exact hgl
          have hq2 : ((applyOps (fs.map Op.insert)).data.map (fun p => p.id)).get?
              (fs.length - 1) = some last.id := by
            rw [List.get?_map, hq]
            rfl
          rw [hids] at hq2
          have hl : fs.length - 1 < ((List.range fs.length).map
              (fun i => i % 4294967296)).length := by
            simp
            omega
          have hq3 : ((List.range fs.length).map (fun i => i % 4294967296)).get?
              (fs.length - 1) = some ((fs.length - 1) % 4294967296) := by
            rw [List.get?_eq_get hl]
            simp [List.get_eq_getElem]
          rw [hq3] at hq2
          have hlast : last.id = (fs.length - 1) % 4294967296 :=
            (Option.some.inj hq2).symm
          show (last.id + 1) % 4294967296 = fs.length % 4294967296
          rw [hlast]
          omega
      rw [happ]
      constructor
      · show ((applyOps (fs.map Op.insert)).data ++
            [BuildProduct (applyOps (fs.map Op.insert)).data f]).map (fun p => p.id) = _
        rw [List.map_append, hids,
          show (fs ++ [f]).length = fs.length + 1 by simp,
          List.range_succ, List.map_append]
        congr 1
        simp [hid]
      · show (applyOps (fs.map Op.insert)).index ++
            [IndexEntry.mk (BuildProduct (applyOps (fs.map Op.insert)).data f).id
              (productSize * (applyOps (fs.map Op.insert)).data.length)] = _
        rw [hidx, hid, hlen,
          show (fs ++ [f]).length = fs.length + 1 by simp,
          List.range_succ, List.map_append]
        rfl

/-- Claim C5 (amended): for every sequence of at most 2^32 inserts starting
from an empty store, the Primary Index file read front to back is strictly
ascending in key.  The insert path (`BuildProduct`) assigns
ID = (last stored record's ID + 1) mod 2^32 (or 0 on an empty store) and
`AppendIndexToFile` appends the entries in the same order as the data
records, so while no wrap occurs the index is exactly
`(0, 0), (1, productSize), (2, 2 * productSize), ...`. -/
theorem claim_C5_index_ascending (fs : List Fields)
    (hb : fs.length ≤ 4294967296) :
    IndexSorted (applyOps (fs.map Op.insert)).index := by
  have hnp : noPurge (fs.map Op.insert) = true := by
    rw [noPurge, List.all_eq_true]
    intro op hop
    obtain ⟨f, _, rfl⟩ := List.mem_map.mp hop
    rfl
  have hni : numInserts (fs.map Op.insert) ≤ 4294967296 := by
    rw [numInserts_map_insert]
    exact hb
  obtain ⟨⟨hlen, hidx, hrec, hslot⟩, _⟩ := applyOps_invariant _ hnp hni
  rw [hidx]
  exact rangeIndex_sorted _

/-- Witness for claim C5: two concrete inserts produce a strictly ascending
index. -/
theorem claim_C5_index_ascending_witness :
    ([Fields.mk 4 [] 2, Fields.mk 6 [] 3] : List Fields).length ≤ 4294967296 ∧
    IndexSorted (applyOps
      (([Fields.mk 4 [] 2, Fields.mk 6 [] 3] : List Fields).map Op.insert)).index :=
  ⟨by decide, claim_C5_index_ascending [Fields.mk 4 [] 2, Fields.mk 6 [] 3]
    (by decide)⟩

/-- Counterexample for claim C5 as frozen: it quantifies over every sequence
of inserts, but the Go `nextID` is a `uint32` and `lastProduct.ID + 1` wraps
to 0 after 2^32 inserts, so the sequence of 2^32 + 1 inserts yields an index
whose entry at position 2^32 carries key 0 right after the entry with key
2^32 - 1: the index file is not ascending. -/
theorem claim_C5_counterexample :
    ¬ IndexSorted (applyOps
      ((List.replicate 4294967297 (Fields.mk 0 [] 1)).map Op.insert)).index := by
  intro hs
  obtain ⟨_, hidx⟩ := applyInserts_wrapped (List.replicate 4294967297 (Fields.mk 0 [] 1))
  rw [List.length_replicate] at hidx
  rw [hidx, IndexSorted, List.pairwise_map, List.pairwise_iff_getElem] at hs
  have hr : (List.range 4294967297).length = 4294967297 := List.length_range _
  have h1 := hs 4294967295 4294967296 (by rw [hr]; norm_num) (by rw [hr]; norm_num)
    (by norm_num)
  rw [List.getElem_range, List.getElem_range] at h1
  norm_num at h1

/-- Claim C1 (amended): for every sequence of inserts and softDeletes (no
purges, at most 2^32 inserts so the uint32 key counter does not wrap) from
an empty store, looking up any inserted key k returns found with the record
last written for k: key k, the fields of the k-th insert, and the active
flag cleared exactly when a soft delete of k happened after its
insertion. -/
theorem claim_C1_lookup (ops : List Op) (k : Nat) (f : Fields)
    (hnp : noPurge ops = true) (hb : numInserts ops ≤ 4294967296)
    (hf : insertFields ops k = some f) :
    LookupProduct (applyOps ops) k =
      some (Product.mk k f.categoryID f.brand f.price (!(isDeleted ops k))) := by
  obtain ⟨⟨hlen, hidx, hrec, hslot⟩, _⟩ := applyOps_invariant ops hnp hb
  have hk : k < (applyOps ops).data.length := by
    rw [hlen]
    exact insertFields_lt ops k f hf
  have hsorted : IndexSorted (applyOps ops).index := by
    rw [hidx]
    exact rangeIndex_sorted _
  have hmem : (⟨k, productSize * k⟩ : IndexEntry) ∈ (applyOps ops).index := by
    rw [hidx]
    exact mem_rangeIndex _ k hk
  have hsearch : BinarySearchOnDisk (applyOps ops).index k = (productSize * k, true) :=
    BinarySearchOnDisk_finds _ k _ hsorted hmem
  have hread : ReadFromDataFile (applyOps ops).data (productSize * k) =
      .returned ((applyOps ops).data.get ⟨k, hk⟩) :=
    readFromDataFile_aligned (applyOps ops).data k hk
  obtain ⟨g, hg, hr⟩ := hrec k hk
  have hgf : g = f := by
    rw [hg] at hf
    exact Option.some.inj hf
  subst hgf
  simp only [LookupProduct, hsearch, hread, hr]

/-- Witness for claim C1: two inserts followed by a soft delete of key 0;
the lookup of key 0 reports found with the inserted fields and the active
flag cleared. -/
theorem claim_C1_lookup_witness :
    noPurge [Op.insert ⟨7, [], 5⟩, Op.insert ⟨8, [], 6⟩, Op.softDelete 0] = true ∧
    numInserts [Op.insert ⟨7, [], 5⟩, Op.insert ⟨8, [], 6⟩, Op.softDelete 0] ≤
      4294967296 ∧
    insertFields [Op.insert ⟨7, [], 5⟩, Op.insert ⟨8, [], 6⟩, Op.softDelete 0] 0 =
      some ⟨7, [], 5⟩ ∧
    LookupProduct
      (applyOps [Op.insert ⟨7, [], 5⟩, Op.insert ⟨8, [], 6⟩, Op.softDelete 0]) 0 =
      some (Product.mk 0 7 [] 5 false) := by
  refine ⟨by decide, by decide, by decide, ?_⟩
  rw [claim_C1_lookup [Op.insert ⟨7, [], 5⟩, Op.insert ⟨8, [], 6⟩, Op.softDelete 0]
    0 ⟨7, [], 5⟩ (by decide) (by decide) (by decide)]
  decide

/-- Counterexample for claim C1 as frozen: it also allows purges of other
keys before the lookup.  After inserting keys 0, 1, 2 and purging key 1, the
data records of the surviving keys shift `productSize` bytes down while the
index keeps their old offsets, so the lookup of key 2 reads past the last
whole record and aborts (`log.Fatalf`) instead of returning key 2's record:
the claim demanded `(r, true)` for a key that was inserted and never purged. -/
theorem claim_C1_counterexample :
    insertFields [Op.insert ⟨100, [], 1⟩, Op.insert ⟨101, [], 2⟩,
        Op.insert ⟨102, [], 3⟩, Op.purge 1] 2 = some ⟨102, [], 3⟩ ∧
    isDeleted [Op.insert ⟨100, [], 1⟩, Op.insert ⟨101, [], 2⟩,
        Op.insert ⟨102, [], 3⟩, Op.purge 1] 2 = false ∧
    LookupProduct (applyOps [Op.insert ⟨100, [], 1⟩, Op.insert ⟨101, [], 2⟩,
        Op.insert ⟨102, [], 3⟩, Op.purge 1]) 2 = none := by
  refine ⟨by decide, by decide, ?_⟩
  have h1 : applyOps [Op.insert ⟨100, [], 1⟩, Op.insert ⟨101, [], 2⟩,
      Op.insert ⟨102, [], 3⟩] = StoreState.mk
        [Product.mk 0 100 [] 1 true, Product.mk 1 101 [] 2 true,
          Product.mk 2 102 [] 3 true]
        [⟨0, 0⟩, ⟨1, 113⟩, ⟨2, 226⟩]
        (some (Product.mk 2 102 [] 3 true)) := by decide
  have h2 : BinarySearchOnDisk [⟨0, 0⟩, ⟨1, 113⟩, ⟨2, 226⟩] 1 = (113, true) :=
    BinarySearchOnDisk_finds _ 1 113 (by decide) (by decide)
  have h3 : applyOps [Op.insert ⟨100, [], 1⟩, Op.insert ⟨101, [], 2⟩,
      Op.insert ⟨102, [], 3⟩, Op.purge 1] = StoreState.mk
        [Product.mk 0 100 [] 1 true, Product.mk 2 102 [] 3 true]
        [⟨0, 0⟩, ⟨2, 226⟩]
        (some (Product.mk 2 102 [] 3 true)) := by
    rw [show applyOps [Op.insert ⟨100, [], 1⟩, Op.insert ⟨101, [], 2⟩,
        Op.insert ⟨102, [], 3⟩, Op.purge 1] =
      applyOp (applyOps [Op.insert ⟨100, [], 1⟩, Op.insert ⟨101, [], 2⟩,
        Op.insert ⟨102, [], 3⟩]) (Op.purge 1) from rfl, h1]
    simp only [applyOp, RemoveByID, h2]
    decide
  have h4 : BinarySearchOnDisk [⟨0, 0⟩, ⟨2, 226⟩] 2 = (226, true) :=
    BinarySearchOnDisk_finds _ 2 226 (by decide) (by decide)
  rw [h3]
  simp only [LookupProduct, h4]
  decide

/-- Claim C3 (amended): after any sequence of inserts with positive prices,
soft deletes and explicit recomputes from an empty store (at most 2^32
inserts so the uint32 key counter does not wrap), the secondary index
either is still the empty slot of the empty store, or holds a value `m`
with `GoodSlot`: the zero sentinel when no record is active, otherwise the
first active record in file order whose price is maximal among active
records (ties keep the first encountered). -/
theorem claim_C3_aggregate (ops : List Op) (hnp : noPurge ops = true)
    (hb : numInserts ops ≤ 4294967296) (hpos : posPrices ops = true) :
    ((applyOps ops).data = [] ∧ SearchMostExpensiveProduct (applyOps ops) = none) ∨
    (∃ m, SearchMostExpensiveProduct (applyOps ops) = some m ∧
      GoodSlot (applyOps ops).data m) := by
  obtain ⟨_, hslotinv⟩ := applyOps_invariant ops hnp hb
  rcases hslotinv hpos with ⟨h1, h2⟩ | ⟨m, hm, hgood⟩
  · exact Or.inl ⟨h1, h2⟩
  · exact Or.inr ⟨m, hm, hgood⟩

/-- Witness for claim C3: the spec scenario — insert prices 10, 50, 30, soft
delete the key-1 record (the 50 one, the current holder) and recompute. -/
theorem claim_C3_aggregate_witness :
    noPurge [Op.insert ⟨0, [], 10⟩, Op.insert ⟨0, [], 50⟩, Op.insert ⟨0, [], 30⟩,
      Op.softDelete 1, Op.recompute] = true ∧
    numInserts [Op.insert ⟨0, [], 10⟩, Op.insert ⟨0, [], 50⟩, Op.insert ⟨0, [], 30⟩,
      Op.softDelete 1, Op.recompute] ≤ 4294967296 ∧
    posPrices [Op.insert ⟨0, [], 10⟩, Op.insert ⟨0, [], 50⟩, Op.insert ⟨0, [], 30⟩,
      Op.softDelete 1, Op.recompute] = true ∧
    (((applyOps [Op.insert ⟨0, [], 10⟩, Op.insert ⟨0, [], 50⟩, Op.insert ⟨0, [], 30⟩,
        Op.softDelete 1, Op.recompute]).data = [] ∧
      SearchMostExpensiveProduct (applyOps [Op.insert ⟨0, [], 10⟩,
        Op.insert ⟨0, [], 50⟩, Op.insert ⟨0, [], 30⟩,
        Op.softDelete 1, Op.recompute]) = none) ∨
    (∃ m, SearchMostExpensiveProduct (applyOps [Op.insert ⟨0, [], 10⟩,
        Op.insert ⟨0, [], 50⟩, Op.insert ⟨0, [], 30⟩,
        Op.softDelete 1, Op.recompute]) = some m ∧
      GoodSlot (applyOps [Op.insert ⟨0, [], 10⟩, Op.insert ⟨0, [], 50⟩,
        Op.insert ⟨0, [], 30⟩, Op.softDelete 1, Op.recompute]).data m)) :=
  ⟨by decide, by decide, by decide,
    claim_C3_aggregate [Op.insert ⟨0, [], 10⟩, Op.insert ⟨0, [], 50⟩,
      Op.insert ⟨0, [], 30⟩, Op.softDelete 1, Op.recompute] (by decide) (by decide)
      (by decide)⟩

/-- Counterexample for claim C3 as frozen: insert one product with price 0
and recompute.  An active record remains (the data file is exactly that
record, still active), yet `currentMaximum()` returns the zero sentinel — an
inactive record different from the active one — because the recompute scan
starts from the zero `Product{}` and only replaces it on a strictly greater
price. -/
theorem claim_C3_counterexample :
    (applyOps [Op.insert ⟨1, [], 0⟩, Op.recompute]).data =
      [Product.mk 0 1 [] 0 true] ∧
    SearchMostExpensiveProduct (applyOps [Op.insert ⟨1, [], 0⟩, Op.recompute]) =
      some zeroProduct ∧
    zeroProduct.active = false := by
  refine ⟨by decide, by decide, rfl⟩

/-- Claim C4: purging a key k present in a well-formed store (strictly
ascending index, k's entry holding a record-aligned in-range offset,
pairwise distinct records) succeeds; afterwards the lookup of k reports
not-found, the index is exactly one entry shorter and still strictly
ascending, and the purged record is no longer anywhere in the rewritten
data file. -/
theorem claim_C4_purge (s : StoreState) (k off : Nat)
    (hsorted : IndexSorted s.index)
    (hmem : (⟨k, off⟩ : IndexEntry) ∈ s.index)
    (halign : off % productSize = 0)
    (hoff : off / productSize < s.data.length)
    (hnd : s.data.Nodup) :
    ∃ s', RemoveByID s k = some s' ∧
      LookupProduct s' k = none ∧
      s'.index.length + 1 = s.index.length ∧
      IndexSorted s'.index ∧
      s.data.get ⟨off / productSize, hoff⟩ ∉ s'.data := by
  have hsearch : BinarySearchOnDisk s.index k = (off, true) :=
    BinarySearchOnDisk_finds _ k off hsorted hmem
  have hdvd : productSize ∣ off := Nat.dvd_of_mod_eq_zero halign
  have hoffm : productSize * (off / productSize) = off := Nat.mul_div_cancel' hdvd
  have hdata : RemoveProductFromDataFile s.data 0 off =
      s.data.eraseIdx (off / productSize) := by
    have h := removeProductFromDataFile_eq_eraseIdx s.data 0 (off / productSize)
      (Nat.zero_le _)
    rw [Nat.mul_zero, hoffm, Nat.sub_zero] at h
    exact h
  have hrp : RemoveByID s k = some (StoreState.mk
      (RemoveProductFromDataFile s.data 0 off)
      (RemoveFromIndexFile s.index k) s.slot) := by
    simp only [RemoveByID, hsearch]
  refine ⟨_, hrp, ?_, ?_, ?_, ?_⟩
  · have hsearch' : BinarySearchOnDisk (RemoveFromIndexFile s.index k) k = (0, false) :=
      BinarySearchOnDisk_not_found _ k (removeFromIndexFile_no_id s.index k)
    simp only [LookupProduct, hsearch']
  · exact removeFromIndexFile_length s.index k off hsorted hmem
  · exact removeFromIndexFile_sorted s.index k hsorted
  · simp only [hdata]
    exact not_mem_eraseIdx_of_nodup s.data _ hoff hnd

/-- Witness for claim C4: a concrete two-record store, purging key 4. -/
theorem claim_C4_purge_witness :
    IndexSorted [⟨4, 0⟩, ⟨9, 113⟩] ∧
    (⟨4, 0⟩ : IndexEntry) ∈ [(⟨4, 0⟩ : IndexEntry), ⟨9, 113⟩] ∧
    (0 : Nat) % productSize = 0 ∧
    (0 : Nat) / productSize < 2 ∧
    (∃ s', RemoveByID (StoreState.mk
        [Product.mk 4 1 [] 3 true, Product.mk 9 2 [] 7 true]
        [⟨4, 0⟩, ⟨9, 113⟩] none) 4 = some s' ∧
      LookupProduct s' 4 = none ∧
      s'.index.length + 1 = 2 ∧
      IndexSorted s'.index ∧
      (StoreState.mk [Product.mk 4 1 [] 3 true, Product.mk 9 2 [] 7 true]
        [⟨4, 0⟩, ⟨9, 113⟩] none).data.get ⟨0 / productSize, by decide⟩ ∉ s'.data) :=
  ⟨by decide, by decide, by decide, by decide,
    claim_C4_purge (StoreState.mk [Product.mk 4 1 [] 3 true, Product.mk 9 2 [] 7 true]
      [⟨4, 0⟩, ⟨9, 113⟩] none) 4 0 (by decide) (by decide) (by decide) (by decide)
      (by decide)⟩

/-- Claim C7: the frame effect of a purge in a well-formed store.  The
rewritten index is exactly the old one with k's entry dropped, so every
surviving entry keeps the very (key, offset) pair it had; the rewritten data
file is the old one with the record at k's offset dropped, so records before
it keep their position and every record after it sits one record
(`productSize` bytes) earlier with its stored bytes unchanged; the
secondary-index slot file is untouched. -/
theorem claim_C7_purge_frame (s : StoreState) (k off : Nat)
    (hsorted : IndexSorted s.index)
    (hmem : (⟨k, off⟩ : IndexEntry) ∈ s.index)
    (halign : off % productSize = 0)
    (hoff : off / productSize < s.data.length) :
    ∃ s', RemoveByID s k = some s' ∧
      s'.index = s.index.filter (fun e => e.id != k) ∧
      (∀ e ∈ s.index, e.id ≠ k → e ∈ s'.index) ∧
      s'.data = s.data.eraseIdx (off / productSize) ∧
      (∀ j, j < off / productSize → s'.data.get? j = s.data.get? j) ∧
      (∀ j, off / productSize < j → j < s.data.length →
        s'.data.get? (j - 1) = s.data.get? j) ∧
      s'.slot = s.slot := by
  have hsearch : BinarySearchOnDisk s.index k = (off, true) :=
    BinarySearchOnDisk_finds _ k off hsorted hmem
  have hdvd : productSize ∣ off := Nat.dvd_of_mod_eq_zero halign
  have hoffm : productSize * (off / productSize) = off := Nat.mul_div_cancel' hdvd
  have hdata : RemoveProductFromDataFile s.data 0 off =
      s.data.eraseIdx (off / productSize) := by
    have h := removeProductFromDataFile_eq_eraseIdx s.data 0 (off / productSize)
      (Nat.zero_le _)
    rw [Nat.mul_zero, hoffm, Nat.sub_zero] at h
    exact h
  have hrp : RemoveByID s k = some (StoreState.mk
      (RemoveProductFromDataFile s.data 0 off)
      (RemoveFromIndexFile s.index k) s.slot) := by
    simp only [RemoveByID, hsearch]
  refine ⟨_, hrp, rfl, ?_, hdata, ?_, ?_, rfl⟩
  · intro e he hne
    exact removeFromIndexFile_mem s.index k e he hne
  · intro j hj
    simp only [hdata]
    exact eraseIdx_get?_lt s.data _ j hj
  · intro j h1 h2
    simp only [hdata]
    exact eraseIdx_get?_gt s.data _ j hoff h1 h2

/-- Witness for claim C7: a concrete three-record store, purging the middle
key 5 at offset 113. -/
theorem claim_C7_purge_frame_witness :
    IndexSorted [⟨2, 0⟩, ⟨5, 113⟩, ⟨8, 226⟩] ∧
    (⟨5, 113⟩ : IndexEntry) ∈ [(⟨2, 0⟩ : IndexEntry), ⟨5, 113⟩, ⟨8, 226⟩] ∧
    (113 : Nat) % productSize = 0 ∧
    (113 : Nat) / productSize < 3 ∧
    (∃ s', RemoveByID (StoreState.mk
        [Product.mk 2 1 [] 3 true, Product.mk 5 1 [] 4 true, Product.mk 8 1 [] 5 true]
        [⟨2, 0⟩, ⟨5, 113⟩, ⟨8, 226⟩] none) 5 = some s' ∧
      s'.index = List.filter (fun e => e.id != 5)
        [(⟨2, 0⟩ : IndexEntry), ⟨5, 113⟩, ⟨8, 226⟩] ∧
      (∀ e ∈ [(⟨2, 0⟩ : IndexEntry), ⟨5, 113⟩, ⟨8, 226⟩], e.id ≠ 5 → e ∈ s'.index) ∧
      s'.data = List.eraseIdx
        [Product.mk 2 1 [] 3 true, Product.mk 5 1 [] 4 true, Product.mk 8 1 [] 5 true]
        (113 / productSize) ∧
      (∀ j, j < 113 / productSize → s'.data.get? j =
        List.get? [Product.mk 2 1 [] 3 true, Product.mk 5 1 [] 4 true,
          Product.mk 8 1 [] 5 true] j) ∧
      (∀ j, 113 / productSize < j → j < 3 →
        s'.data.get? (j - 1) = List.get? [Product.mk 2 1 [] 3 true,
          Product.mk 5 1 [] 4 true, Product.mk 8 1 [] 5 true] j) ∧
      s'.slot = none) :=
  ⟨by decide, by decide, by decide, by decide,
    claim_C7_purge_frame (StoreState.mk
      [Product.mk 2 1 [] 3 true, Product.mk 5 1 [] 4 true, Product.mk 8 1 [] 5 true]
      [⟨2, 0⟩, ⟨5, 113⟩, ⟨8, 226⟩] none) 5 113 (by decide) (by decide) (by decide)
      (by decide)⟩

/-- Claim C6 (amended): starting from an empty metrics file, n increments of
category c with 1 ≤ n < 2^32 yield query(c) = n; in general each category's
query returns its increment count reduced modulo 2^32 (the `uint32` width of
`NumberOfOcurrences`), a never-incremented category queries to 0 without
error, and the file holds at most one entry per category. -/
theorem claim_C6_metrics (n c c2 : Nat) (acts : List Nat)
    (hn : n < 4294967296) :
    (SearchActionMetrics (applyMetrics (List.replicate n c)) c).occurrences = n ∧
    (SearchActionMetrics (applyMetrics acts) c2).occurrences =
      acts.count c2 % 4294967296 ∧
    ((applyMetrics acts).map (fun m => m.action)).Nodup := by
  refine ⟨?_, applyMetrics_query acts c2, applyMetrics_nodup acts⟩
  rw [applyMetrics_query, List.count_replicate_self]
  exact Nat.mod_eq_of_lt hn

/-- Witness for claim C6: three increments of category 1 query to 3; over
the increment sequence [1, 1, 2] category 2 queries to its count and the
file keys are distinct. -/
theorem claim_C6_metrics_witness :
    (3 : Nat) < 4294967296 ∧
    ((SearchActionMetrics (applyMetrics (List.replicate 3 1)) 1).occurrences = 3 ∧
      (SearchActionMetrics (applyMetrics [1, 1, 2]) 2).occurrences =
        List.count 2 [1, 1, 2] % 4294967296 ∧
      ((applyMetrics [1, 1, 2]).map (fun m => m.action)).Nodup) :=
  ⟨by decide, claim_C6_metrics 3 1 2 [1, 1, 2] (by decide)⟩

/-- Counterexample for claim C6 as frozen: it demands query(c) = n for every
n ≥ 1, but `NumberOfOcurrences` is a `uint32` and `++` wraps, so after
exactly 2^32 increments of category 1 the stored count is 0, not 2^32. -/
theorem claim_C6_counterexample :
    (SearchActionMetrics (applyMetrics (List.replicate 4294967296 1)) 1).occurrences
      = 0 := by
  rw [applyMetrics_query, List.count_replicate_self, Nat.mod_self]

/-- Claim C8 (amended): a read at an offset that is not record-aligned or
does not leave a whole record before end of file terminates the process via
`log.Fatalf` — it does not return an error (or anything) to the caller —
while the sequential scan of `PrintAllProducts` treats end of file as normal
termination and returns (prints) the active records. -/
theorem claim_C8_read_errors (d : List Product) (off : Nat) :
    (ReadFromDataFile d off = Outcome.fatalExit ↔
      ¬(off % productSize = 0 ∧ off / productSize < d.length)) ∧
    PrintAllProducts d = Outcome.returned (d.filter (fun p => p.active)) := by
  refine ⟨⟨?_, ?_⟩, rfl⟩
  · intro h hcond
    rw [ReadFromDataFile, dif_pos hcond] at h
    cases h
  · intro hcond
    rw [ReadFromDataFile, dif_neg hcond]

/-- Counterexample for claim C8 as frozen: reading at offset 0 of an empty
data file is a short read; the claim says a `NotFound`/`CorruptRecord` error
is returned to the caller, but `ReadFromDataFile` hits `log.Fatalf`, which
terminates the process and returns nothing. -/
theorem claim_C8_counterexample :
    ReadFromDataFile ([] : List Product) 0 = Outcome.fatalExit := by decide

/-- Claim C9: for every valid fixed-layout product record (uint32 fields
below 2^32, exactly 100 brand bytes each below 256), decoding the encoded
113-byte little-endian buffer returns the original record. -/
theorem claim_C9_roundtrip (p : ProductRaw) (hv : ValidProductRaw p) :
    decodeProduct (encodeProduct p) = some p :=
  decode_encode p hv

/-- Witness for claim C9: a concrete record with a nonzero price bit
pattern round-trips. -/
theorem claim_C9_roundtrip_witness :
    ValidProductRaw (ProductRaw.mk 3 7 (List.replicate 100 66) 1078530011 true) ∧
    decodeProduct (encodeProduct
        (ProductRaw.mk 3 7 (List.replicate 100 66) 1078530011 true)) =
      some (ProductRaw.mk 3 7 (List.replicate 100 66) 1078530011 true) :=
  ⟨by unfold ValidProductRaw; decide,
    claim_C9_roundtrip (ProductRaw.mk 3 7 (List.replicate 100 66) 1078530011 true)
      (by unfold ValidProductRaw; decide)⟩

/-- Claim C10: soft delete is idempotent at the public interface — when the
record of a key present in the index is already inactive, `RemoveProduct`
returns success and the whole store state (data file, index file, and
secondary-index slot) is exactly unchanged; in particular no recompute of
the aggregate slot happens, whatever stale value the slot may hold. -/
theorem claim_C10_softDelete_idempotent (s : StoreState) (k off : Nat)
    (hsorted : IndexSorted s.index)
    (hmem : (⟨k, off⟩ : IndexEntry) ∈ s.index)
    (halign : off % productSize = 0)
    (hoff : off / productSize < s.data.length)
    (hinactive : (s.data.get ⟨off / productSize, hoff⟩).active = false) :
    RemoveProduct s k = some s := by
  have hsearch : BinarySearchOnDisk s.index k = (off, true) :=
    BinarySearchOnDisk_finds _ k off hsorted hmem
  have hread : ReadFromDataFile s.data off =
      .returned (s.data.get ⟨off / productSize, hoff⟩) := by
    rw [ReadFromDataFile, dif_pos (⟨halign, hoff⟩ :
      off % productSize = 0 ∧ off / productSize < s.data.length)]
  simp only [RemoveProduct, hsearch, hread, hinactive, Bool.false_eq_true, if_false]

/-- Witness for claim C10: a store whose only record is already inactive and
whose slot holds a stale value; the second soft delete returns success and
changes nothing. -/
theorem claim_C10_softDelete_idempotent_witness :
    IndexSorted [⟨5, 0⟩] ∧
    (⟨5, 0⟩ : IndexEntry) ∈ [(⟨5, 0⟩ : IndexEntry)] ∧
    (0 : Nat) % productSize = 0 ∧
    (0 : Nat) / productSize < 1 ∧
    (List.get [Product.mk 5 2 [] 9 false] ⟨0 / productSize, by decide⟩).active = false ∧
    RemoveProduct (StoreState.mk [Product.mk 5 2 [] 9 false] [⟨5, 0⟩]
      (some (Product.mk 5 2 [] 9 true))) 5 =
      some (StoreState.mk [Product.mk 5 2 [] 9 false] [⟨5, 0⟩]
        (some (Product.mk 5 2 [] 9 true))) :=
  ⟨by decide, by decide, by decide, by decide, by decide,
    claim_C10_softDelete_idempotent (StoreState.mk [Product.mk 5 2 [] 9 false]
      [⟨5, 0⟩] (some (Product.mk 5 2 [] 9 true))) 5 0 (by decide) (by decide)
      (by decide) (by decide) (by decide)⟩

end UCS
